import Mathlib

/-!
# Wordle analyzer: constraint filtering and scoring

A shallow embedding of `src/wordle.cpp` (class `WordleAnalyzer`).

* `std::bitset<MAX_WORDS>` is a natural number read as a bit pattern: bit `i` of the
  bitset is `Nat.testBit x i`, `a & b` is `a &&& b`, `~a` is the exclusive or with the
  all-ones pattern of width `MAX_WORDS`, `count()` counts the set bits below the width.
* `std::string` is a `List Char`; `s[i]` is `charAt s i`.
* `char letter = c - 'a'` is the integer difference of the character codes.
* the two `std::array` tables are functions of their indices.
* the two word tables of `guess_words.h` and `solution_words.h` are a parameter
  (`Vocabulary`); `GUESS_COUNT` and `SOLUTION_COUNT` are their lengths.
* `double` scores are exact rationals.
* a run of `main` is the list of what it reports (`Event`): the remaining count, the
  solution word, the call of the scoring engine.
-/

namespace Wordle

/-! ## The compiled-in word tables -/

/-- The word tables `GUESS_WORDS` and `SOLUTION_WORDS` declared in `guess_words.h` and
`solution_words.h`. The headers are not part of the sources at hand, so the tables are a
parameter of the development. -/
structure Vocabulary where
  GUESS_WORDS : List (List Char)
  SOLUTION_WORDS : List (List Char)
deriving DecidableEq

/-- The constant `GUESS_COUNT`: the number of entries of `GUESS_WORDS`. -/
def Vocabulary.GUESS_COUNT (v : Vocabulary) : Nat := v.GUESS_WORDS.length

/-- The constant `SOLUTION_COUNT`: the number of entries of `SOLUTION_WORDS`. -/
def Vocabulary.SOLUTION_COUNT (v : Vocabulary) : Nat := v.SOLUTION_WORDS.length

/-- Line 18: `constexpr size_t WORD_LENGTH = 5`. -/
def WORD_LENGTH : Nat := 5

/-- Line 19: `constexpr size_t MAX_WORDS = GUESS_COUNT`. -/
def Vocabulary.MAX_WORDS (v : Vocabulary) : Nat := v.GUESS_COUNT

/-- The string subscript `s[i]`: the character at `i`, and the terminating null character
at `i = s.size()`. (Subscripts beyond the size are undefined in the source.) -/
def charAt (s : List Char) (i : Nat) : Char := s.getD i (Char.ofNat 0)

/-- The expression `c - 'a'` of lines 45, 57, 73, 74. -/
def letter (c : Char) : Int := (c.toNat : Int) - (('a').toNat : Int)

/-- A lowercase letter `'a'..'z'`: the characters whose `letter` is a valid index `0..25`
of the 26-entry tables. -/
def isLower (c : Char) : Bool := decide (('a').toNat ≤ c.toNat) && decide (c.toNat ≤ ('z').toNat)

/-- A word of `WORD_LENGTH` lowercase letters. -/
def isWord (w : List Char) : Bool := decide (w.length = WORD_LENGTH) && w.all isLower

/-- A feedback string of `WORD_LENGTH` symbols, each one of `=`, `+`, `-`. -/
def isPattern (p : List Char) : Bool :=
  decide (p.length = WORD_LENGTH) && p.all (fun c => c == '=' || c == '+' || c == '-')

/-- The tables the program is built for: every entry of both tables is a word of five
lowercase letters, and the bit vector (of width `GUESS_COUNT`) has a bit for every solution
index, so that `set(i)` at line 46 is in range. -/
def Vocabulary.WellFormed (v : Vocabulary) : Prop :=
  v.SOLUTION_COUNT ≤ v.GUESS_COUNT ∧
  (∀ w ∈ v.SOLUTION_WORDS, isWord w = true) ∧
  (∀ w ∈ v.GUESS_WORDS, isWord w = true)

instance (v : Vocabulary) : Decidable v.WellFormed := by
  unfold Vocabulary.WellFormed; infer_instance

/-- The table subscript `SOLUTION_WORDS[i]`. -/
def Vocabulary.solution (v : Vocabulary) (i : Nat) : List Char := v.SOLUTION_WORDS.getD i []

/-- The table subscript `GUESS_WORDS[k]`. -/
def Vocabulary.guess (v : Vocabulary) (k : Nat) : List Char := v.GUESS_WORDS.getD k []

/-! ## Bit vectors: `std::bitset<MAX_WORDS>` -/

/-- Line 21: `using WordSet = std::bitset<MAX_WORDS>`, as the number whose binary digits
are the bits. -/
abbrev WordSet := Nat

namespace WordSet

/-- The call `b.set()`: every one of the `W` bits set. -/
def all (W : Nat) : WordSet := 2 ^ W - 1

/-- The call `b.set(i)`: bit `i` set, the others unchanged (`i` below the width). -/
def set (b : WordSet) (i : Nat) : WordSet := b ||| 2 ^ i

/-- The operator `~b` on a bit vector of width `W`. -/
def compl (W : Nat) (b : WordSet) : WordSet := (2 ^ W - 1) ^^^ b

/-- The call `b.count()`: the number of set bits among the `W` bits. -/
def count (W : Nat) (b : WordSet) : Nat := (List.range W).countP (fun i => b.testBit i)

end WordSet

/-! ## The analyzer -/

/-- The data members of `class WordleAnalyzer` (lines 26-38); the mutex has no content. -/
structure WordleAnalyzer where
  letter_positions : Nat → Int → WordSet
  letter_presence : Int → WordSet
  current_solutions : WordSet
  known_guesses : List (List Char × List Char)

/-- The state before the constructor body runs: the bit vectors are value-initialised to
zero and the history is empty. -/
def WordleAnalyzer.fresh : WordleAnalyzer where
  letter_positions := fun _ _ => 0
  letter_presence := fun _ => 0
  current_solutions := 0
  known_guesses := []

/-- Lines 45-47: the body of the inner loop of `preprocess_words` for word `i` at
position `j`. -/
def preprocess_position (i : Nat) (word : List Char) (a : WordleAnalyzer) (j : Nat) :
    WordleAnalyzer :=
  let l := letter (charAt word j)
  { a with
    letter_positions := fun j' l' =>
      if j' = j ∧ l' = l then (a.letter_positions j' l').set i else a.letter_positions j' l'
    letter_presence := fun l' =>
      if l' = l then (a.letter_presence l').set i else a.letter_presence l' }

/-- Lines 43-48: the body of the outer loop of `preprocess_words` for word `i`. -/
def preprocess_word (v : Vocabulary) (a : WordleAnalyzer) (i : Nat) : WordleAnalyzer :=
  (List.range WORD_LENGTH).foldl (preprocess_position i (v.solution i)) a

/-- Lines 41-51: `preprocess_words`. -/
def preprocess_words (v : Vocabulary) (a : WordleAnalyzer) : WordleAnalyzer :=
  let a' := (List.range v.SOLUTION_COUNT).foldl (preprocess_word v) a
  { a' with current_solutions := WordSet.all v.MAX_WORDS }

/-- Lines 104-107: the constructor. -/
def WordleAnalyzer.new (v : Vocabulary) : WordleAnalyzer :=
  preprocess_words v { WordleAnalyzer.fresh with current_solutions := WordSet.all v.MAX_WORDS }

/-- Lines 57-64: the body of the loop of `apply_guess` at position `i`. -/
def apply_guess_step (v : Vocabulary) (a : WordleAnalyzer) (guess pattern : List Char)
    (result : WordSet) (i : Nat) : WordSet :=
  let l := letter (charAt guess i)
  if charAt pattern i = '=' then
    result &&& a.letter_positions i l
  else if charAt pattern i = '+' then
    result &&& (a.letter_presence l &&& WordSet.compl v.MAX_WORDS (a.letter_positions i l))
  else if charAt pattern i = '-' then
    result &&& WordSet.compl v.MAX_WORDS (a.letter_presence l)
  else
    result

/-- Lines 54-67: `apply_guess`. -/
def apply_guess (v : Vocabulary) (a : WordleAnalyzer) (guess pattern : List Char) : WordSet :=
  (List.range WORD_LENGTH).foldl (apply_guess_step v a guess pattern) a.current_solutions

/-- Lines 73-81: the body of the loop of `calculate_remaining_words` at position `i`. -/
def calculate_remaining_step (v : Vocabulary) (a : WordleAnalyzer) (guess solution : List Char)
    (remaining : WordSet) (i : Nat) : WordSet :=
  let g := letter (charAt guess i)
  let s := letter (charAt solution i)
  if g = s then
    remaining &&& a.letter_positions i g
  else if solution.contains (charAt guess i) then
    remaining &&& (a.letter_presence g &&& WordSet.compl v.MAX_WORDS (a.letter_positions i g))
  else
    remaining &&& WordSet.compl v.MAX_WORDS (a.letter_presence g)

/-- Lines 70-84: `calculate_remaining_words`. -/
def calculate_remaining_words (v : Vocabulary) (a : WordleAnalyzer) (guess solution : List Char) :
    WordSet :=
  (List.range WORD_LENGTH).foldl (calculate_remaining_step v a guess solution) a.current_solutions

/-- Lines 89-94: the accumulator `total_remaining` after the loop of `analyze_guess`. -/
def total_remaining (v : Vocabulary) (a : WordleAnalyzer) (guess : List Char) : Nat :=
  (List.range v.SOLUTION_COUNT).foldl
    (fun total solution_index =>
      if a.current_solutions.testBit solution_index then
        total + WordSet.count v.MAX_WORDS (calculate_remaining_words v a guess (v.solution solution_index))
      else total)
    0

/-- Line 95: `mean_remaining = total_remaining / current_solutions.count()`, as an exact
rational. -/
def mean_remaining (v : Vocabulary) (a : WordleAnalyzer) (guess : List Char) : ℚ :=
  (total_remaining v a guess : ℚ) / (WordSet.count v.MAX_WORDS a.current_solutions : ℚ)

/-- Lines 87-100: `analyze_guess`, which appends its entry to `results`. -/
def analyze_guess (v : Vocabulary) (a : WordleAnalyzer) (guess_index : Nat)
    (results : List (List Char × ℚ)) : List (List Char × ℚ) :=
  results ++ [(v.guess guess_index, mean_remaining v a (v.guess guess_index))]

/-- Line 113: the body of the loop of `apply_known_guesses` for one record. -/
def apply_known_step (v : Vocabulary) (a : WordleAnalyzer) (r : List Char × List Char) :
    WordleAnalyzer :=
  { a with current_solutions := a.current_solutions &&& apply_guess v a r.1 r.2 }

/-- Lines 110-114: the state change of `apply_known_guesses`. -/
def apply_known_guesses (v : Vocabulary) (a : WordleAnalyzer)
    (guesses : List (List Char × List Char)) : WordleAnalyzer :=
  guesses.foldl (apply_known_step v) { a with known_guesses := guesses }

/-- Lines 176-178: `get_remaining_solutions_count`. -/
def get_remaining_solutions_count (v : Vocabulary) (a : WordleAnalyzer) : Nat :=
  WordSet.count v.MAX_WORDS a.current_solutions

/-- The analyzer built by the constructor for the tables `v`, with its candidate set
`current_solutions` replaced by `cs`: the tables are never written after construction, the
candidate set is the only member that later code narrows. -/
def analyzerWith (v : Vocabulary) (cs : WordSet) : WordleAnalyzer :=
  { WordleAnalyzer.new v with current_solutions := cs }

/-- Section 4.5, `fold_history`: the candidate set after the constructor and
`apply_known_guesses` on the given history. -/
def fold_history (v : Vocabulary) (history : List (List Char × List Char)) : WordSet :=
  (apply_known_guesses v (WordleAnalyzer.new v) history).current_solutions

/-- Section 4.2 of the specification, `derive_pattern`: at position `j`, `=` (Hit) if
`guess[j] == true_solution[j]`, else `+` (Present) if `true_solution` contains `guess[j]`
anywhere, else `-` (Miss). -/
def derive_pattern (guess true_solution : List Char) : List Char :=
  (List.range WORD_LENGTH).map fun j =>
    if charAt guess j = charAt true_solution j then '='
    else if charAt guess j ∈ true_solution then '+'
    else '-'

/-- Section 4.3 of the specification, `score`: over every solution index `i` whose bit is
set in the candidate set, the population of the set the constraint engine returns for the
pattern derived against solution word `i`, summed, and divided by the population of the
candidate set. -/
def spec_score (v : Vocabulary) (a : WordleAnalyzer) (guess : List Char) : ℚ :=
  ((((List.range v.SOLUTION_COUNT).filter (fun i => a.current_solutions.testBit i)).map
      (fun i => WordSet.count v.MAX_WORDS
        (apply_guess v a guess (derive_pattern guess (v.solution i))))).sum : ℚ) /
    (WordSet.count v.MAX_WORDS a.current_solutions : ℚ)

/-- A small vocabulary: four solution words, and six words that may be guessed (the four
solution words and two more). -/
def sampleVocabulary : Vocabulary where
  GUESS_WORDS := ["crane".toList, "abide".toList, "speed".toList, "fuzzy".toList,
    "slate".toList, "lippy".toList]
  SOLUTION_WORDS := ["crane".toList, "abide".toList, "speed".toList, "fuzzy".toList]

/-- The test the loop body of `apply_guess` at position `j` (lines 57-64) puts on bit `k`:
the bit of the vector that `result` is intersected with there, and `true` where the
pattern symbol is none of `=`, `+`, `-` and nothing is intersected. -/
def keeps (v : Vocabulary) (a : WordleAnalyzer) (guess pattern : List Char) (j k : Nat) : Bool :=
  let l := letter (charAt guess j)
  if charAt pattern j = '=' then
    (a.letter_positions j l).testBit k
  else if charAt pattern j = '+' then
    (a.letter_presence l).testBit k && (WordSet.compl v.MAX_WORDS (a.letter_positions j l)).testBit k
  else if charAt pattern j = '-' then
    (WordSet.compl v.MAX_WORDS (a.letter_presence l)).testBit k
  else
    true

/-- The test one record `(guess, pattern)` of a history puts on bit `k`: the tests of the
five positions together. -/
def record_keeps (v : Vocabulary) (a : WordleAnalyzer) (r : List Char × List Char) (k : Nat) :
    Bool :=
  (List.range WORD_LENGTH).all (fun j => keeps v a r.1 r.2 j k)

/-! ## The run of `main` -/

/-- What a run reports, in order: the line `Remaining possible solutions: n` (line 115),
the line `The solution is: word` (line 119), and the call of `analyze_possible_guesses`
(line 220) on the analyzer whose candidate set is `candidates`. The ranked lists printed
from the results of that call (lines 223-251) and the timings are not part of the model. -/
inductive Event where
  | remaining (n : Nat)
  | solution (word : List Char)
  | analyze (candidates : WordSet)
deriving DecidableEq

/-- Lines 115-123: what `apply_known_guesses` prints once the history is folded into the
analyzer `a`: the population of the candidate set and, when that population is 1, the word
of the first solution index whose bit is set (nothing more if no solution index has its bit
set). -/
def apply_known_guesses_output (v : Vocabulary) (a : WordleAnalyzer) : List Event :=
  Event.remaining (WordSet.count v.MAX_WORDS a.current_solutions) ::
    (if WordSet.count v.MAX_WORDS a.current_solutions = 1 then
      match (List.range v.SOLUTION_COUNT).find? (fun i => a.current_solutions.testBit i) with
      | some i => [Event.solution (v.solution i)]
      | none => []
    else [])

/-- Lines 210-215: the command-line arguments after the program name, taken two by two as
`(guess, pattern)` records; a last argument without a partner is dropped. -/
def parse_args : List (List Char) → List (List Char × List Char)
  | guess :: pattern :: rest => (guess, pattern) :: parse_args rest
  | _ => []

/-- Lines 207 and 216-252: the body of `main` once the history is parsed: construct the
analyzer, fold the history, and call `analyze_possible_guesses` if more than one bit of the
candidate set is left. -/
def run_history (v : Vocabulary) (history : List (List Char × List Char)) : List Event :=
  let analyzer := apply_known_guesses v (WordleAnalyzer.new v) history
  apply_known_guesses_output v analyzer ++
    (if get_remaining_solutions_count v analyzer > 1 then
      [Event.analyze analyzer.current_solutions]
    else [])

/-- Lines 204-252: `main` on the arguments `args`. -/
def main (v : Vocabulary) (args : List (List Char)) : List Event :=
  run_history v (parse_args args)

/-- A second small vocabulary, with exactly one guess word beyond the four solution words:
the bit vector has one bit, bit 4, that stands for no solution word. -/
def sampleVocabularyOneExtra : Vocabulary where
  GUESS_WORDS := ["crane".toList, "abide".toList, "speed".toList, "fuzzy".toList,
    "slate".toList]
  SOLUTION_WORDS := ["crane".toList, "abide".toList, "speed".toList, "fuzzy".toList]

/-! ## Bit-level facts -/

theorem WordSet.testBit_all (W i : Nat) : (WordSet.all W).testBit i = decide (i < W) := by
  unfold WordSet.all
  exact Nat.testBit_two_pow_sub_one W i

theorem WordSet.testBit_set (b i k : Nat) :
    (WordSet.set b i).testBit k = (b.testBit k || decide (i = k)) := by
  unfold WordSet.set
  rw [Nat.testBit_or, Nat.testBit_two_pow]

theorem WordSet.testBit_compl (W b i : Nat) :
    (WordSet.compl W b).testBit i = (decide (i < W) ^^ b.testBit i) := by
  unfold WordSet.compl
  rw [Nat.testBit_xor, Nat.testBit_two_pow_sub_one]

theorem WordSet.count_le_of_subset (W a b : Nat)
    (h : ∀ i, i < W → a.testBit i = true → b.testBit i = true) :
    WordSet.count W a ≤ WordSet.count W b := by
  unfold WordSet.count
  apply List.countP_mono_left
  intro i hi ha
  exact h i (List.mem_range.mp hi) ha

theorem WordSet.count_le_width (W a : Nat) : WordSet.count W a ≤ W := by
  unfold WordSet.count
  calc (List.range W).countP (fun i => a.testBit i) ≤ (List.range W).length := List.countP_le_length _
    _ = W := List.length_range W

/-! ## The index tables after construction -/

theorem preprocess_position_current (i : Nat) (w : List Char) (a : WordleAnalyzer) (j : Nat) :
    (preprocess_position i w a j).current_solutions = a.current_solutions := rfl

theorem fold_position_positions (i : Nat) (w : List Char) (ps : List Nat) (a : WordleAnalyzer)
    (j : Nat) (l : Int) (k : Nat) :
    ((ps.foldl (preprocess_position i w) a).letter_positions j l).testBit k = true ↔
      (a.letter_positions j l).testBit k = true ∨
        (k = i ∧ j ∈ ps ∧ l = letter (charAt w j)) := by
  induction ps generalizing a with
  | nil => simp
  | cons p ps ih =>
    rw [List.foldl_cons, ih]
    simp only [preprocess_position, List.mem_cons]
    by_cases h : j = p ∧ l = letter (charAt w p)
    · rw [if_pos h, WordSet.testBit_set, Bool.or_eq_true, decide_eq_true_eq]
      constructor
      · rintro ((h' | h') | h')
        · exact Or.inl h'
        · exact Or.inr ⟨h'.symm, Or.inl h.1, h.1 ▸ h.2⟩
        · exact Or.inr ⟨h'.1, Or.inr h'.2.1, h'.2.2⟩
      · rintro (h | ⟨h1, _, _⟩)
        · exact Or.inl (Or.inl h)
        · exact Or.inl (Or.inr h1.symm)
    · rw [if_neg h]
      constructor
      · rintro (h' | ⟨h1, h2, h3⟩)
        · exact Or.inl h'
        · exact Or.inr ⟨h1, Or.inr h2, h3⟩
      · rintro (h' | ⟨h1, h2 | h2, h3⟩)
        · exact Or.inl h'
        · exact absurd ⟨h2, h2 ▸ h3⟩ h
        · exact Or.inr ⟨h1, h2, h3⟩

theorem fold_position_presence (i : Nat) (w : List Char) (ps : List Nat) (a : WordleAnalyzer)
    (l : Int) (k : Nat) :
    ((ps.foldl (preprocess_position i w) a).letter_presence l).testBit k = true ↔
      (a.letter_presence l).testBit k = true ∨
        (k = i ∧ ∃ j ∈ ps, l = letter (charAt w j)) := by
  induction ps generalizing a with
  | nil => simp
  | cons p ps ih =>
    rw [List.foldl_cons, ih]
    simp only [preprocess_position, List.mem_cons]
    by_cases h : l = letter (charAt w p)
    · rw [if_pos h, WordSet.testBit_set]
      simp only [Bool.or_eq_true, decide_eq_true_eq]
      constructor
      · rintro ((h' | h') | ⟨h1, j, hj, hl⟩)
        · exact Or.inl h'
        · exact Or.inr ⟨h'.symm, p, Or.inl rfl, h⟩
        · exact Or.inr ⟨h1, j, Or.inr hj, hl⟩
      · rintro (h' | ⟨h1, _⟩)
        · exact Or.inl (Or.inl h')
        · exact Or.inl (Or.inr h1.symm)
    · rw [if_neg h]
      constructor
      · rintro (h' | ⟨h1, j, hj, hl⟩)
        · exact Or.inl h'
        · exact Or.inr ⟨h1, j, Or.inr hj, hl⟩
      · rintro (h' | ⟨h1, j, hj | hj, hl⟩)
        · exact Or.inl h'
        · exact absurd (hj ▸ hl) h
        · exact Or.inr ⟨h1, j, hj, hl⟩

theorem fold_word_positions (v : Vocabulary) (is : List Nat) (a : WordleAnalyzer)
    (j : Nat) (l : Int) (k : Nat) :
    ((is.foldl (preprocess_word v) a).letter_positions j l).testBit k = true ↔
      (a.letter_positions j l).testBit k = true ∨
        (k ∈ is ∧ j < WORD_LENGTH ∧ l = letter (charAt (v.solution k) j)) := by
  induction is generalizing a with
  | nil => simp
  | cons i is ih =>
    rw [List.foldl_cons, ih]
    simp only [preprocess_word, fold_position_positions, List.mem_range, List.mem_cons]
    constructor
    · rintro ((h | ⟨rfl, h2, h3⟩) | ⟨h1, h2, h3⟩)
      · exact Or.inl h
      · exact Or.inr ⟨Or.inl rfl, h2, h3⟩
      · exact Or.inr ⟨Or.inr h1, h2, h3⟩
    · rintro (h | ⟨rfl | h1, h2, h3⟩)
      · exact Or.inl (Or.inl h)
      · exact Or.inl (Or.inr ⟨rfl, h2, h3⟩)
      · exact Or.inr ⟨h1, h2, h3⟩

theorem fold_word_presence (v : Vocabulary) (is : List Nat) (a : WordleAnalyzer)
    (l : Int) (k : Nat) :
    ((is.foldl (preprocess_word v) a).letter_presence l).testBit k = true ↔
      (a.letter_presence l).testBit k = true ∨
        (k ∈ is ∧ ∃ j, j < WORD_LENGTH ∧ l = letter (charAt (v.solution k) j)) := by
  induction is generalizing a with
  | nil => simp
  | cons i is ih =>
    rw [List.foldl_cons, ih]
    simp only [preprocess_word, fold_position_presence, List.mem_range, List.mem_cons]
    constructor
    · rintro ((h | ⟨rfl, h2⟩) | ⟨h1, h2⟩)
      · exact Or.inl h
      · exact Or.inr ⟨Or.inl rfl, h2⟩
      · exact Or.inr ⟨Or.inr h1, h2⟩
    · rintro (h | ⟨rfl | h1, h2⟩)
      · exact Or.inl (Or.inl h)
      · exact Or.inl (Or.inr ⟨rfl, h2⟩)
      · exact Or.inr ⟨h1, h2⟩

theorem letter_injective (c d : Char) : letter c = letter d ↔ c = d := by
  unfold letter
  constructor
  · intro h
    have h' : c.toNat = d.toNat := by omega
    exact Char.ext (UInt32.ext (by simpa [Char.toNat, UInt32.toNat] using h'))
  · rintro rfl; rfl

theorem new_letter_positions (v : Vocabulary) (j : Nat) (l : Int) (k : Nat) :
    ((WordleAnalyzer.new v).letter_positions j l).testBit k = true ↔
      k < v.SOLUTION_COUNT ∧ j < WORD_LENGTH ∧ l = letter (charAt (v.solution k) j) := by
  show (((List.range v.SOLUTION_COUNT).foldl (preprocess_word v) _).letter_positions j l).testBit k
    = true ↔ _
  rw [fold_word_positions]
  simp [WordleAnalyzer.fresh]

theorem new_letter_presence (v : Vocabulary) (l : Int) (k : Nat) :
    ((WordleAnalyzer.new v).letter_presence l).testBit k = true ↔
      k < v.SOLUTION_COUNT ∧ ∃ j, j < WORD_LENGTH ∧ l = letter (charAt (v.solution k) j) := by
  show (((List.range v.SOLUTION_COUNT).foldl (preprocess_word v) _).letter_presence l).testBit k
    = true ↔ _
  rw [fold_word_presence]
  simp [WordleAnalyzer.fresh]

theorem new_current_solutions (v : Vocabulary) :
    (WordleAnalyzer.new v).current_solutions = WordSet.all v.MAX_WORDS := rfl

theorem isWord_length {w : List Char} (hw : isWord w = true) : w.length = WORD_LENGTH := by
  unfold isWord at hw
  simp only [Bool.and_eq_true, decide_eq_true_eq] at hw
  exact hw.1

theorem mem_iff_charAt {w : List Char} (hw : isWord w = true) (c : Char) :
    c ∈ w ↔ ∃ j, j < WORD_LENGTH ∧ charAt w j = c := by
  have hl := isWord_length hw
  rw [List.mem_iff_getElem]
  constructor
  · rintro ⟨n, hn, h⟩
    refine ⟨n, hl ▸ hn, ?_⟩
    unfold charAt
    rw [List.getD_eq_getElem _ _ hn]
    exact h
  · rintro ⟨j, hj, h⟩
    have hn : j < w.length := hl ▸ hj
    refine ⟨j, hn, ?_⟩
    unfold charAt at h
    rw [List.getD_eq_getElem _ _ hn] at h
    exact h

theorem solution_isWord {v : Vocabulary} (hv : v.WellFormed) {i : Nat}
    (hi : i < v.SOLUTION_COUNT) : isWord (v.solution i) = true := by
  apply hv.2.1
  unfold Vocabulary.solution
  rw [List.getD_eq_getElem _ _ hi]
  exact List.getElem_mem hi

theorem guess_isWord {v : Vocabulary} (hv : v.WellFormed) {k : Nat}
    (hk : k < v.GUESS_COUNT) : isWord (v.guess k) = true := by
  apply hv.2.2
  unfold Vocabulary.guess
  rw [List.getD_eq_getElem _ _ hk]
  exact List.getElem_mem hk

/-- The position table after construction, for a letter given as a character. -/
theorem table_positions (v : Vocabulary) (cs : WordSet) (j : Nat) (c : Char) (k : Nat)
    (hj : j < WORD_LENGTH) :
    (((analyzerWith v cs).letter_positions j (letter c)).testBit k = true) ↔
      k < v.SOLUTION_COUNT ∧ charAt (v.solution k) j = c := by
  show ((WordleAnalyzer.new v).letter_positions j (letter c)).testBit k = true ↔ _
  rw [new_letter_positions, letter_injective]
  constructor
  · rintro ⟨h1, _, h3⟩; exact ⟨h1, h3.symm⟩
  · rintro ⟨h1, h3⟩; exact ⟨h1, hj, h3.symm⟩

/-- The presence table after construction, for a letter given as a character. -/
theorem table_presence (v : Vocabulary) (hv : v.WellFormed) (cs : WordSet) (c : Char) (k : Nat) :
    (((analyzerWith v cs).letter_presence (letter c)).testBit k = true) ↔
      k < v.SOLUTION_COUNT ∧ c ∈ v.solution k := by
  show ((WordleAnalyzer.new v).letter_presence (letter c)).testBit k = true ↔ _
  rw [new_letter_presence]
  constructor
  · rintro ⟨h1, j, hj, h3⟩
    refine ⟨h1, (mem_iff_charAt (solution_isWord hv h1) c).mpr ⟨j, hj, ?_⟩⟩
    exact ((letter_injective _ _).mp h3).symm
  · rintro ⟨h1, h2⟩
    obtain ⟨j, hj, h3⟩ := (mem_iff_charAt (solution_isWord hv h1) c).mp h2
    exact ⟨h1, j, hj, by rw [h3]⟩

/-! ## The constraint engine, bit by bit -/

theorem apply_guess_step_testBit (v : Vocabulary) (a : WordleAnalyzer) (guess pattern : List Char)
    (r : WordSet) (j k : Nat) :
    (apply_guess_step v a guess pattern r j).testBit k =
      (r.testBit k && keeps v a guess pattern j k) := by
  unfold apply_guess_step keeps
  dsimp only
  split
  · rw [Nat.testBit_and]
  · split
    · rw [Nat.testBit_and, Nat.testBit_and]
    · split
      · rw [Nat.testBit_and]
      · rw [Bool.and_true]

theorem apply_guess_fold_testBit (v : Vocabulary) (a : WordleAnalyzer) (guess pattern : List Char)
    (ps : List Nat) (r : WordSet) (k : Nat) :
    (ps.foldl (apply_guess_step v a guess pattern) r).testBit k =
      (r.testBit k && ps.all (fun j => keeps v a guess pattern j k)) := by
  induction ps generalizing r with
  | nil => simp
  | cons p ps ih =>
    rw [List.foldl_cons, ih, apply_guess_step_testBit, List.all_cons, Bool.and_assoc]

theorem apply_guess_testBit (v : Vocabulary) (a : WordleAnalyzer) (guess pattern : List Char)
    (k : Nat) :
    (apply_guess v a guess pattern).testBit k = true ↔
      a.current_solutions.testBit k = true ∧
        ∀ j, j < WORD_LENGTH → keeps v a guess pattern j k = true := by
  unfold apply_guess
  rw [apply_guess_fold_testBit]
  simp [List.all_eq_true]

/-- What the test of position `j` says about bit `k`, for the tables the constructor built:
valid for every bit index, the ones beyond the solution table included. -/
theorem keeps_iff (v : Vocabulary) (hv : v.WellFormed) (cs : WordSet) (guess pattern : List Char)
    (j k : Nat) (hj : j < WORD_LENGTH) :
    keeps v (analyzerWith v cs) guess pattern j k = true ↔
      (charAt pattern j = '=' →
        k < v.SOLUTION_COUNT ∧ charAt (v.solution k) j = charAt guess j) ∧
      (charAt pattern j = '+' →
        k < v.SOLUTION_COUNT ∧ charAt guess j ∈ v.solution k ∧
          charAt (v.solution k) j ≠ charAt guess j) ∧
      (charAt pattern j = '-' →
        k < v.MAX_WORDS ∧ ¬ (k < v.SOLUTION_COUNT ∧ charAt guess j ∈ v.solution k)) := by
  have hW : v.SOLUTION_COUNT ≤ v.MAX_WORDS := hv.1
  have hpos := table_positions v cs j (charAt guess j) k hj
  have hpres := table_presence v hv cs (charAt guess j) k
  have e1 : ('=' : Char) ≠ '+' := by decide
  have e2 : ('=' : Char) ≠ '-' := by decide
  have e3 : ('+' : Char) ≠ '-' := by decide
  unfold keeps
  dsimp only
  by_cases h1 : charAt pattern j = '='
  · rw [if_pos h1, hpos]
    simp [h1, e1, e2]
  · rw [if_neg h1]
    by_cases h2 : charAt pattern j = '+'
    · rw [if_pos h2, Bool.and_eq_true, hpres, WordSet.testBit_compl]
      simp only [h2, e1.symm, e3, false_implies, true_implies, true_and, and_true]
      constructor
      · rintro ⟨⟨hk, hm⟩, hx⟩
        refine ⟨hk, hm, fun hc => ?_⟩
        have hb := hpos.mpr ⟨hk, hc⟩
        rw [hb] at hx
        have : decide (k < v.MAX_WORDS) = true := decide_eq_true (by omega)
        rw [this] at hx
        exact absurd hx (by decide)
      · rintro ⟨hk, hm, hne⟩
        refine ⟨⟨hk, hm⟩, ?_⟩
        have hb : ((analyzerWith v cs).letter_positions j (letter (charAt guess j))).testBit k
            = false := by
          rw [Bool.eq_false_iff]
          intro hb
          exact hne (hpos.mp hb).2
        rw [hb]
        have : decide (k < v.MAX_WORDS) = true := decide_eq_true (by omega)
        rw [this]
        rfl
    · rw [if_neg h2]
      by_cases h3 : charAt pattern j = '-'
      · rw [if_pos h3, WordSet.testBit_compl]
        simp only [h3, e2.symm, e3.symm, false_implies, true_implies, true_and]
        constructor
        · intro hx
          by_cases hb : ((analyzerWith v cs).letter_presence (letter (charAt guess j))).testBit k
              = true
          · have hk := (hpres.mp hb).1
            have : decide (k < v.MAX_WORDS) = true := decide_eq_true (by omega)
            rw [hb, this] at hx
            exact absurd hx (by decide)
          · refine ⟨?_, fun hc => hb (hpres.mpr hc)⟩
            rw [Bool.not_eq_true] at hb
            rw [hb] at hx
            simpa using hx
        · rintro ⟨hk, hn⟩
          have hb : ((analyzerWith v cs).letter_presence (letter (charAt guess j))).testBit k
              = false := by
            rw [Bool.eq_false_iff]
            intro hb
            exact hn (hpres.mp hb)
          rw [hb]
          simpa using hk
      · rw [if_neg h3]
        simp [h1, h2, h3]

/-- The bits of `apply_guess` for the constructed tables, for every bit index. -/
theorem apply_guess_bits (v : Vocabulary) (hv : v.WellFormed) (cs : WordSet)
    (guess pattern : List Char) (k : Nat) :
    (apply_guess v (analyzerWith v cs) guess pattern).testBit k = true ↔
      cs.testBit k = true ∧ ∀ j, j < WORD_LENGTH →
        (charAt pattern j = '=' →
          k < v.SOLUTION_COUNT ∧ charAt (v.solution k) j = charAt guess j) ∧
        (charAt pattern j = '+' →
          k < v.SOLUTION_COUNT ∧ charAt guess j ∈ v.solution k ∧
            charAt (v.solution k) j ≠ charAt guess j) ∧
        (charAt pattern j = '-' →
          k < v.MAX_WORDS ∧ ¬ (k < v.SOLUTION_COUNT ∧ charAt guess j ∈ v.solution k)) := by
  rw [apply_guess_testBit]
  constructor
  · rintro ⟨h1, h2⟩
    exact ⟨h1, fun j hj => (keeps_iff v hv cs guess pattern j k hj).mp (h2 j hj)⟩
  · rintro ⟨h1, h2⟩
    exact ⟨h1, fun j hj => (keeps_iff v hv cs guess pattern j k hj).mpr (h2 j hj)⟩

/-! ## Properties of the constraint engine and the score -/

/-- The solution-word bits of what `apply_guess` returns. For every candidate set, every
guess of five lowercase letters and every pattern of five symbols among `=`, `+`, `-`, a
solution-word index `i` is in the set `apply_guess` returns exactly when it is in the candidate set and, at every position `j`: `=` implies that
solution word `i` has `guess[j]` at `j`; `+` implies that it contains `guess[j]` but not at
`j`; `-` implies that it does not contain `guess[j]`. (`apply_guess` is a `const` member: it
is a function of the analyzer state and returns the new set, the state is not written.) -/
theorem apply_guess_solution_bits (v : Vocabulary) (hv : v.WellFormed) (cs : WordSet)
    (guess pattern : List Char) (_hg : isWord guess = true) (_hp : isPattern pattern = true)
    (i : Nat) (hi : i < v.SOLUTION_COUNT) :
    (apply_guess v (analyzerWith v cs) guess pattern).testBit i = true ↔
      cs.testBit i = true ∧ ∀ j, j < WORD_LENGTH →
        (charAt pattern j = '=' → charAt (v.solution i) j = charAt guess j) ∧
        (charAt pattern j = '+' →
          charAt guess j ∈ v.solution i ∧ charAt (v.solution i) j ≠ charAt guess j) ∧
        (charAt pattern j = '-' → charAt guess j ∉ v.solution i) := by
  have hW : i < v.MAX_WORDS := Nat.lt_of_lt_of_le hi hv.1
  rw [apply_guess_bits v hv]
  constructor
  · rintro ⟨h1, h2⟩
    refine ⟨h1, fun j hj => ?_⟩
    obtain ⟨a, b, c⟩ := h2 j hj
    exact ⟨fun h => (a h).2, fun h => (b h).2, fun h hm => (c h).2 ⟨hi, hm⟩⟩
  · rintro ⟨h1, h2⟩
    refine ⟨h1, fun j hj => ?_⟩
    obtain ⟨a, b, c⟩ := h2 j hj
    exact ⟨fun h => ⟨hi, a h⟩, fun h => ⟨hi, b h⟩, fun h => ⟨hW, fun hm => c h hm.2⟩⟩

/-- C1, the code on the sample tables for the candidate set `0b111111` (all six bits, as the
constructor leaves it), the guess `crane` and the pattern `-----`. `apply_guess` returns
`0b111000`: the solution index 3 (`fuzzy`, which has none of the letters) and also the bits 4
and 5, which are in the candidate set but are the index of no solution word; the candidate
set is the bit vector of all six bits before and after. -/
theorem C1_apply_guess_returns_extra_bits :
    isWord "crane".toList = true ∧ isPattern "-----".toList = true ∧
      sampleVocabulary.SOLUTION_COUNT = 4 ∧
      (WordleAnalyzer.new sampleVocabulary).current_solutions = 63 ∧
      apply_guess sampleVocabulary (WordleAnalyzer.new sampleVocabulary) "crane".toList
        "-----".toList = 56 ∧
      (apply_guess sampleVocabulary (WordleAnalyzer.new sampleVocabulary) "crane".toList
        "-----".toList).testBit 4 = true ∧
      (apply_guess sampleVocabulary (WordleAnalyzer.new sampleVocabulary) "crane".toList
        "-----".toList).testBit 5 = true := by
  refine ⟨by decide, by decide, by decide, by decide, by decide, by decide, by decide⟩

/-- C2. After construction, for every bit index `i`, every position `j < 5` and every
letter `c`: bit `i` of `letter_positions[j][c - 'a']` is set if and only if `i` is a
solution-word index and `SOLUTION_WORDS[i]` has `c` at position `j`; and bit `i` of
`letter_presence[c - 'a']` is set if and only if `i` is a solution-word index and
`SOLUTION_WORDS[i]` contains `c`. -/
theorem C2_index_tables (v : Vocabulary) (hv : v.WellFormed) (i j : Nat) (c : Char)
    (hj : j < WORD_LENGTH) (_hc : isLower c = true) :
    (((WordleAnalyzer.new v).letter_positions j (letter c)).testBit i = true ↔
        i < v.SOLUTION_COUNT ∧ charAt (v.solution i) j = c) ∧
      (((WordleAnalyzer.new v).letter_presence (letter c)).testBit i = true ↔
        i < v.SOLUTION_COUNT ∧ c ∈ v.solution i) :=
  ⟨table_positions v 0 j c i hj, table_presence v hv 0 c i⟩

/-- C2, at the sample tables: bit 1 (`abide`), position 2, letter `i`. -/
theorem C2_index_tables_witness :
    sampleVocabulary.WellFormed ∧ 2 < WORD_LENGTH ∧ isLower 'i' = true ∧
      ((((WordleAnalyzer.new sampleVocabulary).letter_positions 2 (letter 'i')).testBit 1 = true ↔
          1 < sampleVocabulary.SOLUTION_COUNT ∧ charAt (sampleVocabulary.solution 1) 2 = 'i') ∧
        (((WordleAnalyzer.new sampleVocabulary).letter_presence (letter 'i')).testBit 1 = true ↔
          1 < sampleVocabulary.SOLUTION_COUNT ∧ 'i' ∈ sampleVocabulary.solution 1)) :=
  ⟨by decide, by decide, by decide,
    C2_index_tables sampleVocabulary (by decide) 1 2 'i' (by decide) (by decide)⟩

/-! ### The simulation is the constraint engine on the derived pattern -/

theorem contains_iff_mem (l : List Char) (c : Char) : l.contains c = true ↔ c ∈ l := by
  simp

theorem charAt_derive_pattern (guess solution : List Char) (j : Nat) (hj : j < WORD_LENGTH) :
    charAt (derive_pattern guess solution) j =
      if charAt guess j = charAt solution j then '='
      else if charAt guess j ∈ solution then '+'
      else '-' := by
  unfold derive_pattern
  have hlen : j < ((List.range WORD_LENGTH).map fun j =>
      if charAt guess j = charAt solution j then '='
      else if charAt guess j ∈ solution then '+'
      else '-').length := by
    rw [List.length_map, List.length_range]; exact hj
  show List.getD _ j (Char.ofNat 0) = _
  rw [List.getD_eq_getElem _ _ hlen, List.getElem_map, List.getElem_range]

theorem calculate_remaining_step_eq (v : Vocabulary) (a : WordleAnalyzer)
    (guess solution : List Char) (r : WordSet) (j : Nat) (hj : j < WORD_LENGTH) :
    calculate_remaining_step v a guess solution r j =
      apply_guess_step v a guess (derive_pattern guess solution) r j := by
  have e1 : ¬ (('+' : Char) = '=') := by decide
  have e2 : ¬ (('-' : Char) = '=') := by decide
  have e3 : ¬ (('-' : Char) = '+') := by decide
  unfold calculate_remaining_step apply_guess_step
  dsimp only
  rw [charAt_derive_pattern guess solution j hj]
  by_cases h1 : charAt guess j = charAt solution j
  · have hs : (if charAt guess j = charAt solution j then '='
        else if charAt guess j ∈ solution then '+' else '-') = '=' := by
      rw [if_pos h1]
    rw [hs, if_pos ((letter_injective _ _).mpr h1), if_pos rfl]
  · have hl : ¬ (letter (charAt guess j) = letter (charAt solution j)) :=
      fun h => h1 ((letter_injective _ _).mp h)
    by_cases h2 : charAt guess j ∈ solution
    · have h2' : solution.contains (charAt guess j) = true := (contains_iff_mem _ _).mpr h2
      have hs : (if charAt guess j = charAt solution j then '='
          else if charAt guess j ∈ solution then '+' else '-') = '+' := by
        rw [if_neg h1, if_pos h2]
      rw [hs, if_neg hl, if_pos h2', if_neg e1, if_pos rfl]
    · have h2' : ¬ (solution.contains (charAt guess j) = true) :=
        fun h => h2 ((contains_iff_mem _ _).mp h)
      have hs : (if charAt guess j = charAt solution j then '='
          else if charAt guess j ∈ solution then '+' else '-') = '-' := by
        rw [if_neg h1, if_neg h2]
      rw [hs, if_neg hl, if_neg h2', if_neg e2, if_neg e3, if_pos rfl]

theorem calculate_remaining_words_eq (v : Vocabulary) (a : WordleAnalyzer)
    (guess solution : List Char) :
    calculate_remaining_words v a guess solution =
      apply_guess v a guess (derive_pattern guess solution) := by
  unfold calculate_remaining_words apply_guess
  apply List.foldl_ext
  intro r j hj
  exact calculate_remaining_step_eq v a guess solution r j (List.mem_range.mp hj)

theorem foldl_cond_add (p : Nat → Bool) (f : Nat → Nat) (l : List Nat) (t : Nat) :
    l.foldl (fun total i => if p i = true then total + f i else total) t =
      t + ((l.filter p).map f).sum := by
  induction l generalizing t with
  | nil => simp
  | cons x l ih =>
    rw [List.foldl_cons, ih]
    by_cases h : p x = true
    · rw [if_pos h, List.filter_cons_of_pos h, List.map_cons, List.sum_cons, Nat.add_assoc]
    · rw [if_neg h, List.filter_cons_of_neg h]

theorem total_remaining_eq_sum (v : Vocabulary) (a : WordleAnalyzer) (guess : List Char) :
    total_remaining v a guess =
      (((List.range v.SOLUTION_COUNT).filter (fun i => a.current_solutions.testBit i)).map
        (fun i => WordSet.count v.MAX_WORDS
          (calculate_remaining_words v a guess (v.solution i)))).sum := by
  unfold total_remaining
  rw [foldl_cond_add (fun i => a.current_solutions.testBit i)
    (fun i => WordSet.count v.MAX_WORDS (calculate_remaining_words v a guess (v.solution i)))]
  exact Nat.zero_add _

/-- C3. For every guess word and every non-empty candidate set, the score `analyze_guess`
computes is the sum, over the solution indices whose bit is set in the candidate set, of the
population of `apply_guess` on the pattern derived against that solution word, divided by the
population of the candidate set; and `calculate_remaining_words(guess, solution)` is
`apply_guess(guess, derive_pattern(guess, solution))` for all guesses and solutions. -/
theorem C3_score_refines_spec (v : Vocabulary) (a : WordleAnalyzer) (k : Nat)
    (results : List (List Char × ℚ))
    (_hne : 0 < WordSet.count v.MAX_WORDS a.current_solutions) :
    analyze_guess v a k results = results ++ [(v.guess k, spec_score v a (v.guess k))] ∧
      mean_remaining v a (v.guess k) = spec_score v a (v.guess k) ∧
      ∀ guess solution : List Char,
        calculate_remaining_words v a guess solution =
          apply_guess v a guess (derive_pattern guess solution) := by
  have h : mean_remaining v a (v.guess k) = spec_score v a (v.guess k) := by
    unfold mean_remaining spec_score
    rw [total_remaining_eq_sum]
    simp only [calculate_remaining_words_eq]
  refine ⟨?_, h, calculate_remaining_words_eq v a⟩
  unfold analyze_guess
  rw [h]

/-- C3, at the sample tables: the freshly constructed analyzer and guess index 1. -/
theorem C3_score_refines_spec_witness :
    0 < WordSet.count sampleVocabulary.MAX_WORDS
        (WordleAnalyzer.new sampleVocabulary).current_solutions ∧
      (analyze_guess sampleVocabulary (WordleAnalyzer.new sampleVocabulary) 1 [] =
          [] ++ [(sampleVocabulary.guess 1,
            spec_score sampleVocabulary (WordleAnalyzer.new sampleVocabulary)
              (sampleVocabulary.guess 1))] ∧
        mean_remaining sampleVocabulary (WordleAnalyzer.new sampleVocabulary)
            (sampleVocabulary.guess 1) =
          spec_score sampleVocabulary (WordleAnalyzer.new sampleVocabulary)
            (sampleVocabulary.guess 1) ∧
        ∀ guess solution : List Char,
          calculate_remaining_words sampleVocabulary (WordleAnalyzer.new sampleVocabulary)
              guess solution =
            apply_guess sampleVocabulary (WordleAnalyzer.new sampleVocabulary) guess
              (derive_pattern guess solution)) :=
  ⟨by decide,
    C3_score_refines_spec sampleVocabulary (WordleAnalyzer.new sampleVocabulary) 1 []
      (by decide)⟩

/-! ### Folding a history -/

theorem keeps_congr (v : Vocabulary) (a b : WordleAnalyzer)
    (h1 : a.letter_positions = b.letter_positions) (h2 : a.letter_presence = b.letter_presence)
    (guess pattern : List Char) (j k : Nat) :
    keeps v a guess pattern j k = keeps v b guess pattern j k := by
  unfold keeps
  rw [h1, h2]

theorem record_keeps_congr (v : Vocabulary) (a b : WordleAnalyzer)
    (h1 : a.letter_positions = b.letter_positions) (h2 : a.letter_presence = b.letter_presence)
    (r : List Char × List Char) (k : Nat) :
    record_keeps v a r k = record_keeps v b r k := by
  unfold record_keeps
  simp only [keeps_congr v a b h1 h2]

theorem apply_known_step_testBit (v : Vocabulary) (a : WordleAnalyzer)
    (r : List Char × List Char) (k : Nat) :
    (apply_known_step v a r).current_solutions.testBit k =
      (a.current_solutions.testBit k && record_keeps v a r k) := by
  show (a.current_solutions &&& apply_guess v a r.1 r.2).testBit k = _
  rw [Nat.testBit_and]
  unfold apply_guess record_keeps
  rw [apply_guess_fold_testBit, ← Bool.and_assoc, Bool.and_self]

theorem fold_known_tables (v : Vocabulary) (H : List (List Char × List Char))
    (a : WordleAnalyzer) :
    (H.foldl (apply_known_step v) a).letter_positions = a.letter_positions ∧
      (H.foldl (apply_known_step v) a).letter_presence = a.letter_presence := by
  induction H generalizing a with
  | nil => exact ⟨rfl, rfl⟩
  | cons r H ih =>
    rw [List.foldl_cons]
    exact ih (apply_known_step v a r)

theorem fold_known_testBit (v : Vocabulary) (H : List (List Char × List Char))
    (a : WordleAnalyzer) (k : Nat) :
    (H.foldl (apply_known_step v) a).current_solutions.testBit k =
      (a.current_solutions.testBit k && H.all (fun r => record_keeps v a r k)) := by
  induction H generalizing a with
  | nil => simp
  | cons r H ih =>
    rw [List.foldl_cons, ih, apply_known_step_testBit, List.all_cons, Bool.and_assoc]
    have : (fun r' => record_keeps v (apply_known_step v a r) r' k) =
        (fun r' => record_keeps v a r' k) := by
      funext r'
      exact record_keeps_congr v _ _ rfl rfl r' k
    rw [this]

/-- The bits of the folded candidate set, for every bit index. -/
theorem fold_history_testBit (v : Vocabulary) (H : List (List Char × List Char)) (k : Nat) :
    (fold_history v H).testBit k =
      (decide (k < v.MAX_WORDS) && H.all (fun r => record_keeps v (WordleAnalyzer.new v) r k)) := by
  unfold fold_history apply_known_guesses
  rw [fold_known_testBit]
  have : (fun r => record_keeps v { WordleAnalyzer.new v with known_guesses := H } r k) =
      (fun r => record_keeps v (WordleAnalyzer.new v) r k) := by
    funext r
    exact record_keeps_congr v _ _ rfl rfl r k
  rw [this]
  show ((WordSet.all v.MAX_WORDS).testBit k && _) = _
  rw [WordSet.testBit_all]

/-- C6. For every history `H1` and every history `H1 ++ E` that extends it with further
records, every bit of the candidate set after folding the longer history is a bit of the
candidate set after folding `H1` (folding never sets a bit that was clear), hence the
population after the longer history is at most the population after `H1`. -/
theorem C6_fold_monotone (v : Vocabulary) (H1 E : List (List Char × List Char)) :
    (∀ i, (fold_history v (H1 ++ E)).testBit i = true → (fold_history v H1).testBit i = true) ∧
      WordSet.count v.MAX_WORDS (fold_history v (H1 ++ E)) ≤
        WordSet.count v.MAX_WORDS (fold_history v H1) := by
  have h : ∀ i, (fold_history v (H1 ++ E)).testBit i = true →
      (fold_history v H1).testBit i = true := by
    intro i hi
    rw [fold_history_testBit, List.all_append, Bool.and_eq_true, Bool.and_eq_true] at hi
    rw [fold_history_testBit, Bool.and_eq_true]
    exact ⟨hi.1, hi.2.1⟩
  exact ⟨h, WordSet.count_le_of_subset _ _ _ (fun i _ => h i)⟩

/-- C7. For every history and every permutation of it, folding the permuted history from
the initial set yields the same candidate set as folding the original history. -/
theorem C7_fold_order_independent (v : Vocabulary) (H H' : List (List Char × List Char))
    (hp : H.Perm H') : fold_history v H = fold_history v H' := by
  apply Nat.eq_of_testBit_eq
  intro k
  rw [fold_history_testBit, fold_history_testBit]
  congr 1
  rw [Bool.eq_iff_iff, List.all_eq_true, List.all_eq_true]
  exact ⟨fun h r hr => h r (hp.mem_iff.mpr hr), fun h r hr => h r (hp.mem_iff.mp hr)⟩

/-- C7, at the sample tables: the two orders of the records `(crane, -----)` and
`(slate, -----)`. -/
theorem C7_fold_order_independent_witness :
    List.Perm [("crane".toList, "-----".toList), ("slate".toList, "-----".toList)]
        [("slate".toList, "-----".toList), ("crane".toList, "-----".toList)] ∧
      fold_history sampleVocabulary
          [("crane".toList, "-----".toList), ("slate".toList, "-----".toList)] =
        fold_history sampleVocabulary
          [("slate".toList, "-----".toList), ("crane".toList, "-----".toList)] :=
  ⟨List.Perm.swap _ _ _,
    C7_fold_order_independent sampleVocabulary _ _ (List.Perm.swap _ _ _)⟩

/-- C8. For every analyzer state (every candidate set) and every `(guess, pattern)` record,
performing the fold step `current_solutions &= apply_guess(guess, pattern)` twice yields the
same candidate set as performing it once. -/
theorem C8_reapply_idempotent (v : Vocabulary) (a : WordleAnalyzer) (r : List Char × List Char) :
    (apply_known_step v (apply_known_step v a r) r).current_solutions =
      (apply_known_step v a r).current_solutions := by
  apply Nat.eq_of_testBit_eq
  intro k
  rw [apply_known_step_testBit, apply_known_step_testBit,
    record_keeps_congr v (apply_known_step v a r) a rfl rfl, Bool.and_assoc, Bool.and_self]

/-- C9. For every guess word, after folding the single-record history `(guess, "-----")`
from the initial set, a solution word is still a candidate if and only if it contains no
letter of the guess: every solution word that contains a letter of the guess is removed,
every solution word that contains none is kept. -/
theorem C9_all_miss_removes_letters (v : Vocabulary) (hv : v.WellFormed) (guess : List Char)
    (hg : isWord guess = true) (i : Nat) (hi : i < v.SOLUTION_COUNT) :
    (fold_history v [(guess, "-----".toList)]).testBit i = true ↔
      ∀ c ∈ guess, c ∉ v.solution i := by
  have hW : i < v.MAX_WORDS := Nat.lt_of_lt_of_le hi hv.1
  have hpat : ∀ j, j < WORD_LENGTH → charAt "-----".toList j = '-' := by decide
  have e1 : ¬ (('-' : Char) = '=') := by decide
  have e2 : ¬ (('-' : Char) = '+') := by decide
  rw [fold_history_testBit, List.all_cons, List.all_nil, Bool.and_true, Bool.and_eq_true,
    decide_eq_true_eq]
  unfold record_keeps
  rw [List.all_eq_true]
  constructor
  · rintro ⟨_, h⟩ c hc hm
    obtain ⟨j, hj, rfl⟩ := (mem_iff_charAt hg c).mp hc
    have hk := h j (List.mem_range.mpr hj)
    rw [keeps_congr v (WordleAnalyzer.new v) (analyzerWith v 0) rfl rfl,
      keeps_iff v hv 0 guess _ j i hj] at hk
    exact (hk.2.2 (hpat j hj)).2 ⟨hi, hm⟩
  · intro h
    refine ⟨hW, fun j hj => ?_⟩
    have hj' := List.mem_range.mp hj
    rw [keeps_congr v (WordleAnalyzer.new v) (analyzerWith v 0) rfl rfl,
      keeps_iff v hv 0 guess _ j i hj']
    refine ⟨fun he => absurd ((hpat j hj').symm.trans he) e1,
      fun he => absurd ((hpat j hj').symm.trans he) e2, fun _ => ⟨hW, fun hm => ?_⟩⟩
    exact h _ ((mem_iff_charAt hg _).mpr ⟨j, hj', rfl⟩) hm.2

/-- C9, at the sample tables: the history `(crane, -----)` and solution index 1 (`abide`,
which contains `a` and `e`). -/
theorem C9_all_miss_removes_letters_witness :
    sampleVocabulary.WellFormed ∧ isWord "crane".toList = true ∧
      1 < sampleVocabulary.SOLUTION_COUNT ∧
      ((fold_history sampleVocabulary [("crane".toList, "-----".toList)]).testBit 1 = true ↔
        ∀ c ∈ "crane".toList, c ∉ sampleVocabulary.solution 1) :=
  ⟨by decide, by decide, by decide,
    C9_all_miss_removes_letters sampleVocabulary (by decide) "crane".toList (by decide) 1
      (by decide)⟩

/-! ### The bits beyond the solution table -/

theorem WordSet.count_all (W : Nat) : WordSet.count W (WordSet.all W) = W := by
  unfold WordSet.count
  have h : (List.range W).countP (fun i => (WordSet.all W).testBit i) = (List.range W).length := by
    rw [List.countP_eq_length]
    intro i hi
    rw [WordSet.testBit_all]
    exact decide_eq_true (List.mem_range.mp hi)
  rw [h, List.length_range]

theorem fold_history_nil (v : Vocabulary) : fold_history v [] = WordSet.all v.MAX_WORDS := rfl

/-- C5, the code at the empty history. `apply_known_guesses` with no record leaves the
candidate set as the constructor built it, and that set has every one of the `GUESS_COUNT`
bits of the vector set: the population `get_remaining_solutions_count` reports is
`GUESS_COUNT`. For the sample tables it is 6 while `SOLUTION_COUNT` is 4, and bit 4, the
index of no solution word, is set. -/
theorem C5_empty_history_population :
    (∀ v : Vocabulary,
        fold_history v [] = (WordleAnalyzer.new v).current_solutions ∧
        get_remaining_solutions_count v (apply_known_guesses v (WordleAnalyzer.new v) []) =
          v.GUESS_COUNT ∧
        ∀ i, (fold_history v []).testBit i = true ↔ i < v.GUESS_COUNT) ∧
      get_remaining_solutions_count sampleVocabulary
          (apply_known_guesses sampleVocabulary (WordleAnalyzer.new sampleVocabulary) []) = 6 ∧
      sampleVocabulary.SOLUTION_COUNT = 4 ∧
      (fold_history sampleVocabulary []).testBit 4 = true := by
  refine ⟨fun v => ⟨rfl, ?_, fun i => ?_⟩, by decide, by decide, by decide⟩
  · show WordSet.count v.MAX_WORDS (WordSet.all v.MAX_WORDS) = v.GUESS_COUNT
    rw [WordSet.count_all]
    rfl
  · rw [fold_history_nil, WordSet.testBit_all, decide_eq_true_eq]
    rfl

/-- C4, the code after the history `(fuzzy, -----)` on the sample tables. The candidate set
is not empty (population 5: the three solution words without `f`, `u`, `z`, `y` and the two
bits beyond the solution table); for the guess `abide` every simulated remaining set has one
word, so `total_remaining` is 3 and the score is 3/5, below 1. -/
theorem C4_score_below_one :
    get_remaining_solutions_count sampleVocabulary
        (apply_known_guesses sampleVocabulary (WordleAnalyzer.new sampleVocabulary)
          [("fuzzy".toList, "-----".toList)]) = 5 ∧
      sampleVocabulary.guess 1 = "abide".toList ∧
      mean_remaining sampleVocabulary
        (apply_known_guesses sampleVocabulary (WordleAnalyzer.new sampleVocabulary)
          [("fuzzy".toList, "-----".toList)]) (sampleVocabulary.guess 1) = 3 / 5 ∧
      mean_remaining sampleVocabulary
        (apply_known_guesses sampleVocabulary (WordleAnalyzer.new sampleVocabulary)
          [("fuzzy".toList, "-----".toList)]) (sampleVocabulary.guess 1) < 1 := by
  have ht : total_remaining sampleVocabulary
      (apply_known_guesses sampleVocabulary (WordleAnalyzer.new sampleVocabulary)
        [("fuzzy".toList, "-----".toList)]) (sampleVocabulary.guess 1) = 3 := by decide
  have hc : WordSet.count sampleVocabulary.MAX_WORDS
      (apply_known_guesses sampleVocabulary (WordleAnalyzer.new sampleVocabulary)
        [("fuzzy".toList, "-----".toList)]).current_solutions = 5 := by decide
  refine ⟨hc, by decide, ?_, ?_⟩
  · unfold mean_remaining
    rw [ht, hc]
    norm_num
  · unfold mean_remaining
    rw [ht, hc]
    norm_num

/-- C10, the code after the history `(crane, -----)` on the sample tables. The one solution
word still a candidate is `fuzzy`, and the guess `crane` shares no letter with it; the
population of the candidate set is 3 (that word and the two bits beyond the solution table),
`total_remaining` is 3, and the score is 1, not 3. -/
theorem C10_no_common_letter_score :
    (∀ i, i < sampleVocabulary.SOLUTION_COUNT →
        (fold_history sampleVocabulary [("crane".toList, "-----".toList)]).testBit i = true →
        ∀ c ∈ sampleVocabulary.guess 0, c ∉ sampleVocabulary.solution i) ∧
      get_remaining_solutions_count sampleVocabulary
        (apply_known_guesses sampleVocabulary (WordleAnalyzer.new sampleVocabulary)
          [("crane".toList, "-----".toList)]) = 3 ∧
      sampleVocabulary.guess 0 = "crane".toList ∧
      mean_remaining sampleVocabulary
        (apply_known_guesses sampleVocabulary (WordleAnalyzer.new sampleVocabulary)
          [("crane".toList, "-----".toList)]) (sampleVocabulary.guess 0) = 1 := by
  have ht : total_remaining sampleVocabulary
      (apply_known_guesses sampleVocabulary (WordleAnalyzer.new sampleVocabulary)
        [("crane".toList, "-----".toList)]) (sampleVocabulary.guess 0) = 3 := by decide
  have hc : WordSet.count sampleVocabulary.MAX_WORDS
      (apply_known_guesses sampleVocabulary (WordleAnalyzer.new sampleVocabulary)
        [("crane".toList, "-----".toList)]).current_solutions = 3 := by decide
  refine ⟨by decide, hc, by decide, ?_⟩
  unfold mean_remaining
  rw [ht, hc]
  norm_num

/-! ### General facts about the score

The score stays at or below the population for every candidate set. It is at least 1, and
equal to the population when the guess shares no letter with a candidate, as soon as no bit
at or beyond `SOLUTION_COUNT` is set in the candidate set. -/

theorem calculate_remaining_subset (v : Vocabulary) (a : WordleAnalyzer)
    (guess solution : List Char) (k : Nat)
    (h : (calculate_remaining_words v a guess solution).testBit k = true) :
    a.current_solutions.testBit k = true := by
  rw [calculate_remaining_words_eq, apply_guess_testBit] at h
  exact h.1

theorem derive_symbol_hit (guess solution : List Char) (j : Nat) (hj : j < WORD_LENGTH)
    (h : charAt (derive_pattern guess solution) j = '=') :
    charAt guess j = charAt solution j := by
  rw [charAt_derive_pattern guess solution j hj] at h
  by_cases h1 : charAt guess j = charAt solution j
  · exact h1
  · rw [if_neg h1] at h
    by_cases h2 : charAt guess j ∈ solution
    · rw [if_pos h2] at h; exact absurd h (by decide)
    · rw [if_neg h2] at h; exact absurd h (by decide)

theorem derive_symbol_present (guess solution : List Char) (j : Nat) (hj : j < WORD_LENGTH)
    (h : charAt (derive_pattern guess solution) j = '+') :
    charAt guess j ≠ charAt solution j ∧ charAt guess j ∈ solution := by
  rw [charAt_derive_pattern guess solution j hj] at h
  by_cases h1 : charAt guess j = charAt solution j
  · rw [if_pos h1] at h; exact absurd h (by decide)
  · rw [if_neg h1] at h
    by_cases h2 : charAt guess j ∈ solution
    · exact ⟨h1, h2⟩
    · rw [if_neg h2] at h; exact absurd h (by decide)

theorem derive_symbol_miss (guess solution : List Char) (j : Nat) (hj : j < WORD_LENGTH)
    (h : charAt (derive_pattern guess solution) j = '-') :
    charAt guess j ≠ charAt solution j ∧ charAt guess j ∉ solution := by
  rw [charAt_derive_pattern guess solution j hj] at h
  by_cases h1 : charAt guess j = charAt solution j
  · rw [if_pos h1] at h; exact absurd h (by decide)
  · rw [if_neg h1] at h
    by_cases h2 : charAt guess j ∈ solution
    · rw [if_pos h2] at h; exact absurd h (by decide)
    · exact ⟨h1, h2⟩

/-- The simulation against solution word `i` keeps `i` itself. -/
theorem calculate_remaining_self (v : Vocabulary) (hv : v.WellFormed) (cs : WordSet)
    (guess : List Char) (i : Nat) (hi : i < v.SOLUTION_COUNT) (hc : cs.testBit i = true) :
    (calculate_remaining_words v (analyzerWith v cs) guess (v.solution i)).testBit i = true := by
  have hW : i < v.MAX_WORDS := Nat.lt_of_lt_of_le hi hv.1
  rw [calculate_remaining_words_eq, apply_guess_bits v hv]
  refine ⟨hc, fun j hj => ⟨fun h => ?_, fun h => ?_, fun h => ?_⟩⟩
  · exact ⟨hi, (derive_symbol_hit guess _ j hj h).symm⟩
  · obtain ⟨h1, h2⟩ := derive_symbol_present guess _ j hj h
    exact ⟨hi, h2, fun e => h1 e.symm⟩
  · obtain ⟨_, h2⟩ := derive_symbol_miss guess _ j hj h
    exact ⟨hW, fun hm => h2 hm.2⟩

theorem sum_map_le_mul (l : List Nat) (f : Nat → Nat) (c : Nat) (h : ∀ i ∈ l, f i ≤ c) :
    (l.map f).sum ≤ l.length * c := by
  induction l with
  | nil => simp
  | cons x l ih =>
    rw [List.map_cons, List.sum_cons, List.length_cons, Nat.succ_mul]
    have h1 := h x (List.mem_cons_self x l)
    have h2 := ih (fun i hi => h i (List.mem_cons_of_mem x hi))
    omega

theorem le_sum_map_of_pos (l : List Nat) (f : Nat → Nat) (h : ∀ i ∈ l, 1 ≤ f i) :
    l.length ≤ (l.map f).sum := by
  induction l with
  | nil => simp
  | cons x l ih =>
    rw [List.map_cons, List.sum_cons, List.length_cons]
    have h1 := h x (List.mem_cons_self x l)
    have h2 := ih (fun i hi => h i (List.mem_cons_of_mem x hi))
    omega

theorem sum_map_eq_mul (l : List Nat) (f : Nat → Nat) (c : Nat) (h : ∀ i ∈ l, f i = c) :
    (l.map f).sum = l.length * c := by
  induction l with
  | nil => simp
  | cons x l ih =>
    rw [List.map_cons, List.sum_cons, List.length_cons, Nat.succ_mul,
      h x (List.mem_cons_self x l), ih (fun i hi => h i (List.mem_cons_of_mem x hi))]
    omega

/-- The population splits into the candidate solution words (the set bits below
`SOLUTION_COUNT`) and the set bits from `SOLUTION_COUNT` on. -/
theorem count_split (v : Vocabulary) (hv : v.WellFormed) (cs : WordSet) :
    WordSet.count v.MAX_WORDS cs =
      (List.range v.SOLUTION_COUNT).countP (fun i => cs.testBit i) +
        ((List.range (v.MAX_WORDS - v.SOLUTION_COUNT)).map (v.SOLUTION_COUNT + ·)).countP
          (fun i => cs.testBit i) := by
  have hW : v.SOLUTION_COUNT ≤ v.MAX_WORDS := hv.1
  unfold WordSet.count
  have hd : v.MAX_WORDS = v.SOLUTION_COUNT + (v.MAX_WORDS - v.SOLUTION_COUNT) := by omega
  conv_lhs => rw [hd]
  rw [List.range_add, List.countP_append]

theorem candidates_le_count (v : Vocabulary) (hv : v.WellFormed) (cs : WordSet) :
    (List.range v.SOLUTION_COUNT).countP (fun i => cs.testBit i) ≤
      WordSet.count v.MAX_WORDS cs := by
  rw [count_split v hv cs]
  exact Nat.le_add_right _ _

theorem candidates_eq_count (v : Vocabulary) (hv : v.WellFormed) (cs : WordSet)
    (hpad : ∀ k, cs.testBit k = true → k < v.SOLUTION_COUNT) :
    (List.range v.SOLUTION_COUNT).countP (fun i => cs.testBit i) =
      WordSet.count v.MAX_WORDS cs := by
  rw [count_split v hv cs]
  have h0 : ((List.range (v.MAX_WORDS - v.SOLUTION_COUNT)).map (v.SOLUTION_COUNT + ·)).countP
      (fun i => cs.testBit i) = 0 := by
    rw [List.countP_eq_zero]
    intro x hx hb
    obtain ⟨y, _, rfl⟩ := List.mem_map.mp hx
    have := hpad _ hb
    omega
  rw [h0, Nat.add_zero]

/-- The upper bound of the score: `total_remaining` is at most the square of the
population. -/
theorem total_remaining_le (v : Vocabulary) (hv : v.WellFormed) (a : WordleAnalyzer)
    (guess : List Char) :
    total_remaining v a guess ≤
      WordSet.count v.MAX_WORDS a.current_solutions *
        WordSet.count v.MAX_WORDS a.current_solutions := by
  rw [total_remaining_eq_sum]
  refine Nat.le_trans (sum_map_le_mul _ _ (WordSet.count v.MAX_WORDS a.current_solutions) ?_) ?_
  · intro i _
    exact WordSet.count_le_of_subset _ _ _
      (fun k _ hk => calculate_remaining_subset v a guess _ k hk)
  · apply Nat.mul_le_mul_right
    rw [← List.countP_eq_length_filter]
    exact candidates_le_count v hv a.current_solutions

/-- For every non-empty candidate set the score is at most the population. -/
theorem score_le_population (v : Vocabulary) (hv : v.WellFormed) (a : WordleAnalyzer)
    (guess : List Char) (hne : 0 < WordSet.count v.MAX_WORDS a.current_solutions) :
    mean_remaining v a guess ≤ (WordSet.count v.MAX_WORDS a.current_solutions : ℚ) := by
  unfold mean_remaining
  have hpos : (0 : ℚ) < (WordSet.count v.MAX_WORDS a.current_solutions : ℚ) := by
    exact_mod_cast hne
  rw [div_le_iff₀ hpos]
  exact_mod_cast total_remaining_le v hv a guess

/-- Where no bit at or beyond `SOLUTION_COUNT` is set in the candidate set, the score of a
non-empty candidate set is at least 1. -/
theorem one_le_score_of_solution_bits (v : Vocabulary) (hv : v.WellFormed) (cs : WordSet)
    (guess : List Char) (hpad : ∀ k, cs.testBit k = true → k < v.SOLUTION_COUNT)
    (hne : 0 < WordSet.count v.MAX_WORDS cs) :
    1 ≤ mean_remaining v (analyzerWith v cs) guess := by
  unfold mean_remaining
  have hpos : (0 : ℚ) < (WordSet.count v.MAX_WORDS (analyzerWith v cs).current_solutions : ℚ) := by
    exact_mod_cast hne
  rw [le_div_iff₀ hpos, one_mul]
  have h : WordSet.count v.MAX_WORDS cs ≤ total_remaining v (analyzerWith v cs) guess := by
    rw [total_remaining_eq_sum, ← candidates_eq_count v hv cs hpad, List.countP_eq_length_filter]
    apply le_sum_map_of_pos
    intro i hi
    obtain ⟨hi1, hi2⟩ := List.mem_filter.mp hi
    have hself := calculate_remaining_self v hv cs guess i (List.mem_range.mp hi1) hi2
    unfold WordSet.count
    exact List.countP_pos_iff.mpr
      ⟨i, List.mem_range.mpr (Nat.lt_of_lt_of_le (List.mem_range.mp hi1) hv.1), hself⟩
  exact_mod_cast h

/-- For a guess that shares no letter with any candidate solution word, every simulated
remaining set has the population of the candidate set, so `total_remaining` is that
population times the number of candidate solution words. -/
theorem total_remaining_of_no_common_letter (v : Vocabulary) (hv : v.WellFormed) (cs : WordSet)
    (guess : List Char) (hg : isWord guess = true)
    (hno : ∀ i, i < v.SOLUTION_COUNT → cs.testBit i = true → ∀ c ∈ guess, c ∉ v.solution i) :
    total_remaining v (analyzerWith v cs) guess =
      (List.range v.SOLUTION_COUNT).countP (fun i => cs.testBit i) *
        WordSet.count v.MAX_WORDS cs := by
  rw [total_remaining_eq_sum, List.countP_eq_length_filter]
  apply sum_map_eq_mul
  intro i hi
  obtain ⟨hi1, hi2⟩ := List.mem_filter.mp hi
  have hi1 := List.mem_range.mp hi1
  apply Nat.le_antisymm
  · exact WordSet.count_le_of_subset _ _ _
      (fun k _ hk => calculate_remaining_subset v (analyzerWith v cs) guess _ k hk)
  · apply WordSet.count_le_of_subset
    intro k hk hck
    rw [calculate_remaining_words_eq, apply_guess_bits v hv]
    refine ⟨hck, fun j hj => ?_⟩
    have hgj : charAt guess j ∈ guess := (mem_iff_charAt hg _).mpr ⟨j, hj, rfl⟩
    have hni : charAt guess j ∉ v.solution i := hno i hi1 hi2 _ hgj
    refine ⟨fun h => ?_, fun h => ?_, fun _ => ⟨hk, fun hm => ?_⟩⟩
    · have hs : charAt (v.solution i) j ∈ v.solution i :=
        (mem_iff_charAt (solution_isWord hv hi1) _).mpr ⟨j, hj, rfl⟩
      rw [← derive_symbol_hit guess _ j hj h] at hs
      exact absurd hs hni
    · exact absurd (derive_symbol_present guess _ j hj h).2 hni
    · exact hno k hm.1 hck _ hgj hm.2

/-- Where no bit at or beyond `SOLUTION_COUNT` is set in a non-empty candidate set, the score
of a guess that shares no letter with any candidate solution word is the population. -/
theorem score_eq_population_of_solution_bits (v : Vocabulary) (hv : v.WellFormed) (cs : WordSet)
    (guess : List Char) (hg : isWord guess = true)
    (hno : ∀ i, i < v.SOLUTION_COUNT → cs.testBit i = true → ∀ c ∈ guess, c ∉ v.solution i)
    (hpad : ∀ k, cs.testBit k = true → k < v.SOLUTION_COUNT)
    (hne : 0 < WordSet.count v.MAX_WORDS cs) :
    mean_remaining v (analyzerWith v cs) guess = (WordSet.count v.MAX_WORDS cs : ℚ) := by
  unfold mean_remaining
  rw [total_remaining_of_no_common_letter v hv cs guess hg hno,
    candidates_eq_count v hv cs hpad]
  have hpos : (WordSet.count v.MAX_WORDS cs : ℚ) ≠ 0 := by
    exact_mod_cast Nat.pos_iff_ne_zero.mp hne
  show ((WordSet.count v.MAX_WORDS cs * WordSet.count v.MAX_WORDS cs : ℕ) : ℚ) /
    (WordSet.count v.MAX_WORDS cs : ℚ) = _
  push_cast
  field_simp

/-! ### Populations of one and of two -/

theorem WordSet.two_le_count (W b i j : Nat) (hi : i < W) (hj : j < W) (hne : i ≠ j)
    (bi : b.testBit i = true) (bj : b.testBit j = true) : 2 ≤ WordSet.count W b := by
  unfold WordSet.count
  rw [List.countP_eq_length_filter]
  have hnd : [i, j].Nodup := by
    rw [List.nodup_cons]
    exact ⟨by simpa using hne, List.nodup_singleton j⟩
  have hsub : [i, j] ⊆ (List.range W).filter (fun k => b.testBit k) := by
    intro x hx
    rw [List.mem_cons, List.mem_singleton] at hx
    rcases hx with rfl | rfl
    · exact List.mem_filter.mpr ⟨List.mem_range.mpr hi, bi⟩
    · exact List.mem_filter.mpr ⟨List.mem_range.mpr hj, bj⟩
  exact (List.subperm_of_subset hnd hsub).length_le

theorem WordSet.count_le_one (W b i : Nat)
    (h : ∀ k, k < W → b.testBit k = true → k = i) : WordSet.count W b ≤ 1 := by
  unfold WordSet.count
  rw [List.countP_eq_length_filter]
  have hnd : ((List.range W).filter (fun k => b.testBit k)).Nodup :=
    (List.nodup_range W).filter _
  have hsub : (List.range W).filter (fun k => b.testBit k) ⊆ [i] := by
    intro x hx
    obtain ⟨h1, h2⟩ := List.mem_filter.mp hx
    rw [List.mem_singleton]
    exact h x (List.mem_range.mp h1) h2
  exact (List.subperm_of_subset hnd hsub).length_le

theorem WordSet.count_pos (W b i : Nat) (hi : i < W) (bi : b.testBit i = true) :
    0 < WordSet.count W b := by
  unfold WordSet.count
  exact List.countP_pos_iff.mpr ⟨i, List.mem_range.mpr hi, bi⟩

theorem WordSet.exists_of_count_pos (W b : Nat) (h : 0 < WordSet.count W b) :
    ∃ i, i < W ∧ b.testBit i = true := by
  unfold WordSet.count at h
  obtain ⟨i, hi, bi⟩ := List.countP_pos_iff.mp h
  exact ⟨i, List.mem_range.mp hi, bi⟩

/-- With population 1, two set bits below the width are the same bit. -/
theorem WordSet.eq_of_count_one (W b i j : Nat) (h1 : WordSet.count W b = 1)
    (hi : i < W) (hj : j < W) (bi : b.testBit i = true) (bj : b.testBit j = true) : i = j := by
  by_contra hne
  have := WordSet.two_le_count W b i j hi hj hne bi bj
  omega

theorem charAt_derive_pattern_self (w : List Char) (j : Nat) (hj : j < WORD_LENGTH) :
    charAt (derive_pattern w w) j = '=' := by
  rw [charAt_derive_pattern w w j hj, if_pos rfl]

/-- C11. If exactly one candidate solution word is left in the candidate set and the guess
is that candidate's word, then the simulation of the guess against that word as the true
solution, `calculate_remaining_words(guess, guess)`, yields the set with exactly that one
candidate's bit, of population 1. -/
theorem C11_unique_candidate_self (v : Vocabulary) (hv : v.WellFormed) (cs : WordSet) (i : Nat)
    (hi : i < v.SOLUTION_COUNT) (hbit : cs.testBit i = true)
    (honly : ∀ k, k < v.SOLUTION_COUNT → cs.testBit k = true → k = i) :
    (∀ k, (calculate_remaining_words v (analyzerWith v cs) (v.solution i)
        (v.solution i)).testBit k = true ↔ k = i) ∧
      WordSet.count v.MAX_WORDS
        (calculate_remaining_words v (analyzerWith v cs) (v.solution i) (v.solution i)) = 1 := by
  have hW : i < v.MAX_WORDS := Nat.lt_of_lt_of_le hi hv.1
  have hself := calculate_remaining_self v hv cs (v.solution i) i hi hbit
  have hbits : ∀ k, (calculate_remaining_words v (analyzerWith v cs) (v.solution i)
      (v.solution i)).testBit k = true → k = i := by
    intro k hk
    rw [calculate_remaining_words_eq, apply_guess_bits v hv] at hk
    obtain ⟨hc, hall⟩ := hk
    have h0 : (0 : Nat) < WORD_LENGTH := by decide
    have hk' := ((hall 0 h0).1 (charAt_derive_pattern_self _ 0 h0)).1
    exact honly k hk' hc
  refine ⟨fun k => ⟨hbits k, fun h => h ▸ hself⟩, ?_⟩
  apply Nat.le_antisymm
  · exact WordSet.count_le_one _ _ i (fun k _ hk => hbits k hk)
  · exact WordSet.count_pos _ _ i hW hself

/-- C11, at the sample tables: the candidate set `0b110100` (the solution word `speed`, bit
2, and the two bits beyond the solution table), guess `speed`. -/
theorem C11_unique_candidate_self_witness :
    sampleVocabulary.WellFormed ∧ 2 < sampleVocabulary.SOLUTION_COUNT ∧
      Nat.testBit 52 2 = true ∧
      (∀ k, k < sampleVocabulary.SOLUTION_COUNT → Nat.testBit 52 k = true → k = 2) ∧
      ((∀ k, (calculate_remaining_words sampleVocabulary (analyzerWith sampleVocabulary 52)
          (sampleVocabulary.solution 2) (sampleVocabulary.solution 2)).testBit k = true ↔
            k = 2) ∧
        WordSet.count sampleVocabulary.MAX_WORDS
          (calculate_remaining_words sampleVocabulary (analyzerWith sampleVocabulary 52)
            (sampleVocabulary.solution 2) (sampleVocabulary.solution 2)) = 1) :=
  ⟨by decide, by decide, by decide, by decide,
    C11_unique_candidate_self sampleVocabulary (by decide) 52 2 (by decide) (by decide)
      (by decide)⟩

/-! ### The bits at and beyond `SOLUTION_COUNT` -/

theorem keeps_beyond (v : Vocabulary) (hv : v.WellFormed) (cs : WordSet)
    (guess pattern : List Char) (j k : Nat) (hj : j < WORD_LENGTH)
    (hk1 : v.SOLUTION_COUNT ≤ k) (hk2 : k < v.MAX_WORDS) :
    keeps v (analyzerWith v cs) guess pattern j k = true ↔
      charAt pattern j ≠ '=' ∧ charAt pattern j ≠ '+' := by
  rw [keeps_iff v hv cs guess pattern j k hj]
  constructor
  · rintro ⟨h1, h2, _⟩
    exact ⟨fun h => absurd (h1 h).1 (by omega), fun h => absurd (h2 h).1 (by omega)⟩
  · rintro ⟨h1, h2⟩
    exact ⟨fun h => absurd h h1, fun h => absurd h h2,
      fun _ => ⟨hk2, fun hc => absurd hc.1 (by omega)⟩⟩

theorem fold_history_beyond (v : Vocabulary) (hv : v.WellFormed)
    (H : List (List Char × List Char)) (k : Nat)
    (hk1 : v.SOLUTION_COUNT ≤ k) (hk2 : k < v.MAX_WORDS) :
    (fold_history v H).testBit k = true ↔
      ∀ r ∈ H, ∀ j, j < WORD_LENGTH → charAt r.2 j ≠ '=' ∧ charAt r.2 j ≠ '+' := by
  rw [fold_history_testBit, Bool.and_eq_true, decide_eq_true_eq, List.all_eq_true]
  have hrec : ∀ r : List Char × List Char,
      record_keeps v (WordleAnalyzer.new v) r k = true ↔
        ∀ j, j < WORD_LENGTH → charAt r.2 j ≠ '=' ∧ charAt r.2 j ≠ '+' := by
    intro r
    unfold record_keeps
    rw [List.all_eq_true]
    constructor
    · intro h j hj
      have := h j (List.mem_range.mpr hj)
      rw [keeps_congr v (WordleAnalyzer.new v) (analyzerWith v 0) rfl rfl] at this
      exact (keeps_beyond v hv 0 r.1 r.2 j k hj hk1 hk2).mp this
    · intro h j hj
      rw [keeps_congr v (WordleAnalyzer.new v) (analyzerWith v 0) rfl rfl]
      exact (keeps_beyond v hv 0 r.1 r.2 j k (List.mem_range.mp hj) hk1 hk2).mpr
        (h j (List.mem_range.mp hj))
  constructor
  · rintro ⟨_, h⟩ r hr
    exact (hrec r).mp (h r hr)
  · intro h
    exact ⟨hk2, fun r hr => (hrec r).mpr (h r hr)⟩

/-- A set bit at or beyond `SOLUTION_COUNT` makes the population exceed the number of
candidate solution words. -/
theorem candidates_lt_count (v : Vocabulary) (hv : v.WellFormed) (b : WordSet) (k : Nat)
    (hk1 : v.SOLUTION_COUNT ≤ k) (hk2 : k < v.MAX_WORDS) (hb : b.testBit k = true) :
    (List.range v.SOLUTION_COUNT).countP (fun i => b.testBit i) <
      WordSet.count v.MAX_WORDS b := by
  rw [count_split v hv b]
  have hpos : 0 < ((List.range (v.MAX_WORDS - v.SOLUTION_COUNT)).map
      (v.SOLUTION_COUNT + ·)).countP (fun i => b.testBit i) := by
    rw [List.countP_pos_iff]
    refine ⟨k, List.mem_map.mpr ⟨k - v.SOLUTION_COUNT, List.mem_range.mpr (by omega), ?_⟩, hb⟩
    show v.SOLUTION_COUNT + (k - v.SOLUTION_COUNT) = k
    omega
  omega

/-- C19. The candidate bit vector has width `MAX_WORDS = GUESS_COUNT`. For every bit index
`k` with `SOLUTION_COUNT <= k < GUESS_COUNT` and every history, bit `k` of the folded
candidate set is set if and only if no record of the history has an `=` or a `+` at any of
its five positions. Such a bit belongs to no solution word, yet `count()` counts it: in every
bit vector in which it is set (the candidate set behind the reported remaining count and the
divisor of the score, and each simulated remaining set) the population exceeds the number of
set solution-word bits. -/
theorem C19_bits_beyond_solution_table (v : Vocabulary) (hv : v.WellFormed)
    (H : List (List Char × List Char)) (k : Nat)
    (hk1 : v.SOLUTION_COUNT ≤ k) (hk2 : k < v.GUESS_COUNT) :
    v.MAX_WORDS = v.GUESS_COUNT ∧
      ((fold_history v H).testBit k = true ↔
        ∀ r ∈ H, ∀ j, j < WORD_LENGTH → charAt r.2 j ≠ '=' ∧ charAt r.2 j ≠ '+') ∧
      (∀ a : WordleAnalyzer, a.current_solutions.testBit k = true →
        (List.range v.SOLUTION_COUNT).countP (fun i => a.current_solutions.testBit i) <
          get_remaining_solutions_count v a) ∧
      (∀ (a : WordleAnalyzer) (guess solution : List Char),
        (calculate_remaining_words v a guess solution).testBit k = true →
        (List.range v.SOLUTION_COUNT).countP
            (fun i => (calculate_remaining_words v a guess solution).testBit i) <
          WordSet.count v.MAX_WORDS (calculate_remaining_words v a guess solution)) :=
  ⟨rfl, fold_history_beyond v hv H k hk1 hk2,
    fun a h => candidates_lt_count v hv a.current_solutions k hk1 hk2 h,
    fun a guess solution h =>
      candidates_lt_count v hv (calculate_remaining_words v a guess solution) k hk1 hk2 h⟩

/-- C19, at the sample tables: the history `(crane, -----)` and bit 4, the first bit beyond
the four solution words. -/
theorem C19_bits_beyond_solution_table_witness :
    sampleVocabulary.WellFormed ∧ sampleVocabulary.SOLUTION_COUNT ≤ 4 ∧
      4 < sampleVocabulary.GUESS_COUNT ∧
      (sampleVocabulary.MAX_WORDS = sampleVocabulary.GUESS_COUNT ∧
        ((fold_history sampleVocabulary [("crane".toList, "-----".toList)]).testBit 4 = true ↔
          ∀ r ∈ [("crane".toList, "-----".toList)], ∀ j, j < WORD_LENGTH →
            charAt r.2 j ≠ '=' ∧ charAt r.2 j ≠ '+') ∧
        (∀ a : WordleAnalyzer, a.current_solutions.testBit 4 = true →
          (List.range sampleVocabulary.SOLUTION_COUNT).countP
              (fun i => a.current_solutions.testBit i) <
            get_remaining_solutions_count sampleVocabulary a) ∧
        (∀ (a : WordleAnalyzer) (guess solution : List Char),
          (calculate_remaining_words sampleVocabulary a guess solution).testBit 4 = true →
          (List.range sampleVocabulary.SOLUTION_COUNT).countP
              (fun i => (calculate_remaining_words sampleVocabulary a guess solution).testBit i) <
            WordSet.count sampleVocabulary.MAX_WORDS
              (calculate_remaining_words sampleVocabulary a guess solution))) :=
  ⟨by decide, by decide, by decide,
    C19_bits_beyond_solution_table sampleVocabulary (by decide)
      [("crane".toList, "-----".toList)] 4 (by decide) (by decide)⟩

/-! ### The kept indices are those with the same derived pattern -/

theorem isPattern_length {p : List Char} (hp : isPattern p = true) : p.length = WORD_LENGTH := by
  unfold isPattern at hp
  simp only [Bool.and_eq_true, decide_eq_true_eq] at hp
  exact hp.1

theorem isPattern_symbol {p : List Char} (hp : isPattern p = true) (j : Nat)
    (hj : j < WORD_LENGTH) :
    charAt p j = '=' ∨ charAt p j = '+' ∨ charAt p j = '-' := by
  have hl := isPattern_length hp
  unfold isPattern at hp
  simp only [Bool.and_eq_true, decide_eq_true_eq, List.all_eq_true, Bool.or_eq_true,
    beq_iff_eq] at hp
  have hn : j < p.length := hl ▸ hj
  have hm : charAt p j ∈ p := by
    unfold charAt
    rw [List.getD_eq_getElem _ _ hn]
    exact List.getElem_mem hn
  rcases hp.2 _ hm with (h | h) | h
  · exact Or.inl h
  · exact Or.inr (Or.inl h)
  · exact Or.inr (Or.inr h)

theorem derive_pattern_length (guess solution : List Char) :
    (derive_pattern guess solution).length = WORD_LENGTH := by
  unfold derive_pattern
  rw [List.length_map, List.length_range]

theorem eq_of_charAt_eq {p q : List Char} (hp : p.length = WORD_LENGTH)
    (hq : q.length = WORD_LENGTH) (h : ∀ j, j < WORD_LENGTH → charAt p j = charAt q j) :
    p = q := by
  apply List.ext_getElem (hp.trans hq.symm)
  intro n h1 h2
  have := h n (hp ▸ h1)
  unfold charAt at this
  rw [List.getD_eq_getElem _ _ h1, List.getD_eq_getElem _ _ h2] at this
  exact this

/-- C18. For every candidate set, every guess and every well-formed pattern `p`, a
solution-word index `i` is kept by `apply_guess(guess, p)` exactly when it is a candidate
and the pattern derived for the guess against `SOLUTION_WORDS[i]` is `p`; and every
candidate solution index `i` is a member of
`calculate_remaining_words(guess, SOLUTION_WORDS[i])`. -/
theorem C18_kept_iff_same_pattern (v : Vocabulary) (hv : v.WellFormed) (cs : WordSet)
    (guess p : List Char) (hp : isPattern p = true) (i : Nat) (hi : i < v.SOLUTION_COUNT) :
    ((apply_guess v (analyzerWith v cs) guess p).testBit i = true ↔
        cs.testBit i = true ∧ derive_pattern guess (v.solution i) = p) ∧
      (cs.testBit i = true →
        (calculate_remaining_words v (analyzerWith v cs) guess (v.solution i)).testBit i
          = true) := by
  have hW : i < v.MAX_WORDS := Nat.lt_of_lt_of_le hi hv.1
  have hsol := solution_isWord hv hi
  refine ⟨?_, calculate_remaining_self v hv cs guess i hi⟩
  rw [apply_guess_bits v hv]
  constructor
  · rintro ⟨hc, hall⟩
    refine ⟨hc, eq_of_charAt_eq (derive_pattern_length _ _) (isPattern_length hp) ?_⟩
    intro j hj
    obtain ⟨h1, h2, h3⟩ := hall j hj
    rw [charAt_derive_pattern guess (v.solution i) j hj]
    rcases isPattern_symbol hp j hj with h | h | h
    · rw [h, if_pos (h1 h).2.symm]
    · obtain ⟨_, hm, hne⟩ := h2 h
      rw [h, if_neg (fun e => hne e.symm), if_pos hm]
    · have hn : charAt guess j ∉ v.solution i := fun hm => (h3 h).2 ⟨hi, hm⟩
      have hne : ¬ (charAt guess j = charAt (v.solution i) j) := by
        intro e
        exact hn (e ▸ (mem_iff_charAt hsol _).mpr ⟨j, hj, rfl⟩)
      rw [h, if_neg hne, if_neg hn]
  · rintro ⟨hc, rfl⟩
    refine ⟨hc, fun j hj => ⟨fun h => ?_, fun h => ?_, fun h => ?_⟩⟩
    · exact ⟨hi, (derive_symbol_hit guess _ j hj h).symm⟩
    · obtain ⟨h1, h2⟩ := derive_symbol_present guess _ j hj h
      exact ⟨hi, h2, fun e => h1 e.symm⟩
    · exact ⟨hW, fun hm => (derive_symbol_miss guess _ j hj h).2 hm.2⟩

/-- C18, at the sample tables: all six bits set, guess `speed`, pattern `--+++`, solution
index 1 (`abide`). -/
theorem C18_kept_iff_same_pattern_witness :
    sampleVocabulary.WellFormed ∧ isPattern "--+++".toList = true ∧
      1 < sampleVocabulary.SOLUTION_COUNT ∧
      (((apply_guess sampleVocabulary (analyzerWith sampleVocabulary 63) "speed".toList
            "--+++".toList).testBit 1 = true ↔
          Nat.testBit 63 1 = true ∧
            derive_pattern "speed".toList (sampleVocabulary.solution 1) = "--+++".toList) ∧
        (Nat.testBit 63 1 = true →
          (calculate_remaining_words sampleVocabulary (analyzerWith sampleVocabulary 63)
            "speed".toList (sampleVocabulary.solution 1)).testBit 1 = true)) :=
  ⟨by decide, by decide, by decide,
    C18_kept_iff_same_pattern sampleVocabulary (by decide) 63 "speed".toList "--+++".toList
      (by decide) 1 (by decide)⟩

/-! ### No duplicate-letter accounting in the simulation -/

/-- C17. The branch `calculate_remaining_words` takes at position `j` depends only on
`guess[j]`, `solution[j]` and the set of letters of the solution: two guess/solution pairs
that agree on these take the same step. There is no duplicate-letter accounting: in `speed`
the letter `e` occurs twice (positions 2 and 3), in `abide` once (position 4), and against
`abide` both occurrences take the Present branch, `remaining &= letter_presence[e] &
~letter_positions[j][e]`. -/
theorem C17_no_duplicate_accounting (v : Vocabulary) (a : WordleAnalyzer) (r : WordSet)
    (guess guess' solution solution' : List Char) (j : Nat)
    (hg : charAt guess j = charAt guess' j) (hs : charAt solution j = charAt solution' j)
    (hset : ∀ c, c ∈ solution ↔ c ∈ solution') :
    calculate_remaining_step v a guess solution r j =
        calculate_remaining_step v a guess' solution' r j ∧
      ("speed".toList.count 'e' = 2 ∧ "abide".toList.count 'e' = 1 ∧
        charAt "speed".toList 2 = 'e' ∧ charAt "speed".toList 3 = 'e' ∧
        charAt "abide".toList 2 ≠ 'e' ∧ charAt "abide".toList 3 ≠ 'e' ∧
        charAt (derive_pattern "speed".toList "abide".toList) 2 = '+' ∧
        charAt (derive_pattern "speed".toList "abide".toList) 3 = '+' ∧
        calculate_remaining_step v a "speed".toList "abide".toList r 2 =
          r &&& (a.letter_presence (letter 'e') &&&
            WordSet.compl v.MAX_WORDS (a.letter_positions 2 (letter 'e'))) ∧
        calculate_remaining_step v a "speed".toList "abide".toList r 3 =
          r &&& (a.letter_presence (letter 'e') &&&
            WordSet.compl v.MAX_WORDS (a.letter_positions 3 (letter 'e')))) := by
  refine ⟨?_, by decide, by decide, by decide, by decide, by decide, by decide, by decide,
    by decide, ?_, ?_⟩
  · have hc : solution.contains (charAt guess' j) = solution'.contains (charAt guess' j) := by
      rw [Bool.eq_iff_iff, contains_iff_mem, contains_iff_mem]
      exact hset _
    unfold calculate_remaining_step
    dsimp only
    rw [hg, hs, hc]
  · have h1 : ¬ (letter (charAt "speed".toList 2) = letter (charAt "abide".toList 2)) := by
      decide
    have h2 : "abide".toList.contains (charAt "speed".toList 2) = true := by decide
    have h3 : charAt "speed".toList 2 = 'e' := by decide
    unfold calculate_remaining_step
    dsimp only
    rw [if_neg h1, if_pos h2, h3]
  · have h1 : ¬ (letter (charAt "speed".toList 3) = letter (charAt "abide".toList 3)) := by
      decide
    have h2 : "abide".toList.contains (charAt "speed".toList 3) = true := by decide
    have h3 : charAt "speed".toList 3 = 'e' := by decide
    unfold calculate_remaining_step
    dsimp only
    rw [if_neg h1, if_pos h2, h3]

/-- C17, at the sample tables: the guesses `speed` and `steel` have the same letter at
position 2, against the same solution `abide`. -/
theorem C17_no_duplicate_accounting_witness :
    charAt "speed".toList 2 = charAt "steel".toList 2 ∧
      charAt "abide".toList 2 = charAt "abide".toList 2 ∧
      (∀ c, c ∈ "abide".toList ↔ c ∈ "abide".toList) ∧
      (calculate_remaining_step sampleVocabulary (WordleAnalyzer.new sampleVocabulary)
            "speed".toList "abide".toList 63 2 =
          calculate_remaining_step sampleVocabulary (WordleAnalyzer.new sampleVocabulary)
            "steel".toList "abide".toList 63 2 ∧
        ("speed".toList.count 'e' = 2 ∧ "abide".toList.count 'e' = 1 ∧
          charAt "speed".toList 2 = 'e' ∧ charAt "speed".toList 3 = 'e' ∧
          charAt "abide".toList 2 ≠ 'e' ∧ charAt "abide".toList 3 ≠ 'e' ∧
          charAt (derive_pattern "speed".toList "abide".toList) 2 = '+' ∧
          charAt (derive_pattern "speed".toList "abide".toList) 3 = '+' ∧
          calculate_remaining_step sampleVocabulary (WordleAnalyzer.new sampleVocabulary)
              "speed".toList "abide".toList 63 2 =
            63 &&& ((WordleAnalyzer.new sampleVocabulary).letter_presence (letter 'e') &&&
              WordSet.compl sampleVocabulary.MAX_WORDS
                ((WordleAnalyzer.new sampleVocabulary).letter_positions 2 (letter 'e'))) ∧
          calculate_remaining_step sampleVocabulary (WordleAnalyzer.new sampleVocabulary)
              "speed".toList "abide".toList 63 3 =
            63 &&& ((WordleAnalyzer.new sampleVocabulary).letter_presence (letter 'e') &&&
              WordSet.compl sampleVocabulary.MAX_WORDS
                ((WordleAnalyzer.new sampleVocabulary).letter_positions 3 (letter 'e'))))) :=
  ⟨by decide, rfl, fun _ => Iff.rfl,
    C17_no_duplicate_accounting sampleVocabulary (WordleAnalyzer.new sampleVocabulary) 63
      "speed".toList "steel".toList "abide".toList "abide".toList 2 (by decide) rfl
      (fun _ => Iff.rfl)⟩

/-! ### The run of `main` -/

theorem run_history_eq (v : Vocabulary) (H : List (List Char × List Char)) :
    run_history v H =
      apply_known_guesses_output v (apply_known_guesses v (WordleAnalyzer.new v) H) ++
        (if 1 < WordSet.count v.MAX_WORDS (fold_history v H) then
          [Event.analyze (fold_history v H)]
        else []) := rfl

theorem analyze_not_mem_output (v : Vocabulary) (a : WordleAnalyzer) (cs : WordSet) :
    Event.analyze cs ∉ apply_known_guesses_output v a := by
  unfold apply_known_guesses_output
  intro h
  rw [List.mem_cons] at h
  rcases h with h | h
  · exact Event.noConfusion h
  · split at h
    · split at h
      · rw [List.mem_singleton] at h
        exact Event.noConfusion h
      · exact List.not_mem_nil _ h
    · exact List.not_mem_nil _ h

/-- The scoring engine is called exactly when the folded population exceeds 1, and then on
the folded candidate set. -/
theorem analyze_mem_run_history (v : Vocabulary) (H : List (List Char × List Char))
    (cs : WordSet) :
    Event.analyze cs ∈ run_history v H ↔
      cs = fold_history v H ∧ 1 < WordSet.count v.MAX_WORDS (fold_history v H) := by
  rw [run_history_eq, List.mem_append]
  constructor
  · rintro (h | h)
    · exact absurd h (analyze_not_mem_output v _ cs)
    · split at h
      · rename_i hc
        rw [List.mem_singleton] at h
        exact ⟨Event.analyze.inj h, hc⟩
      · exact absurd h (List.not_mem_nil _)
  · rintro ⟨rfl, hc⟩
    right
    rw [if_pos hc]
    exact List.mem_singleton.mpr rfl

/-- C15. In every run of `main`, whenever the scoring engine is called (and `analyze_guess`
with it) the candidate set it divides by is the folded candidate set and its population
`current_solutions.count()` is greater than 1: the divisor of
`total_remaining / current_solutions.count()` is not zero. -/
theorem C15_divisor_nonzero (v : Vocabulary) (args : List (List Char)) (cs : WordSet)
    (h : Event.analyze cs ∈ main v args) :
    cs = fold_history v (parse_args args) ∧
      1 < get_remaining_solutions_count v (analyzerWith v cs) ∧
      (WordSet.count v.MAX_WORDS (analyzerWith v cs).current_solutions : ℚ) ≠ 0 := by
  obtain ⟨h1, h2⟩ := (analyze_mem_run_history v (parse_args args) cs).mp h
  rw [← h1] at h2
  refine ⟨h1, h2, ?_⟩
  have h3 : WordSet.count v.MAX_WORDS cs ≠ 0 := by omega
  exact_mod_cast h3

/-- C15, at the sample tables: the run on the arguments `fuzzy -----`, which calls the
scoring engine on the candidate set `0b110111`. -/
theorem C15_divisor_nonzero_witness :
    Event.analyze 55 ∈ main sampleVocabulary ["fuzzy".toList, "-----".toList] ∧
      (55 = fold_history sampleVocabulary (parse_args ["fuzzy".toList, "-----".toList]) ∧
        1 < get_remaining_solutions_count sampleVocabulary (analyzerWith sampleVocabulary 55) ∧
        (WordSet.count sampleVocabulary.MAX_WORDS
          (analyzerWith sampleVocabulary 55).current_solutions : ℚ) ≠ 0) :=
  ⟨by decide,
    C15_divisor_nonzero sampleVocabulary ["fuzzy".toList, "-----".toList] 55 (by decide)⟩

theorem output_of_count_one (v : Vocabulary) (hv : v.WellFormed) (a : WordleAnalyzer) (i : Nat)
    (h1 : WordSet.count v.MAX_WORDS a.current_solutions = 1)
    (hi : i < v.SOLUTION_COUNT) (hb : a.current_solutions.testBit i = true) :
    apply_known_guesses_output v a = [Event.remaining 1, Event.solution (v.solution i)] := by
  unfold apply_known_guesses_output
  rw [if_pos h1, h1]
  cases hf : (List.range v.SOLUTION_COUNT).find? (fun i => a.current_solutions.testBit i) with
  | none =>
    rw [List.find?_eq_none] at hf
    exact absurd hb (hf i (List.mem_range.mpr hi))
  | some i' =>
    have hb' : a.current_solutions.testBit i' = true := List.find?_some hf
    have hi' : i' < v.SOLUTION_COUNT := List.mem_range.mp (List.mem_of_find?_eq_some hf)
    have he : i' = i := WordSet.eq_of_count_one _ _ i' i h1
      (Nat.lt_of_lt_of_le hi' hv.1) (Nat.lt_of_lt_of_le hi hv.1) hb' hb
    rw [he]

/-- With a folded population of 1, the one set bit is a solution-word index, unless the bit
vector has exactly one bit beyond the solution table. -/
theorem solution_bit_of_count_one (v : Vocabulary) (hv : v.WellFormed)
    (H : List (List Char × List Char))
    (h1 : WordSet.count v.MAX_WORDS (fold_history v H) = 1)
    (hw : v.GUESS_COUNT ≠ v.SOLUTION_COUNT + 1) :
    ∃ i, i < v.SOLUTION_COUNT ∧ (fold_history v H).testBit i = true := by
  obtain ⟨k, hk, hb⟩ := WordSet.exists_of_count_pos v.MAX_WORDS (fold_history v H) (by omega)
  by_cases hks : k < v.SOLUTION_COUNT
  · exact ⟨k, hks, hb⟩
  · exfalso
    have hk1 : v.SOLUTION_COUNT ≤ k := Nat.le_of_not_lt hks
    have hW : v.MAX_WORDS = v.GUESS_COUNT := rfl
    have hall := (fold_history_beyond v hv H k hk1 hk).mp hb
    by_cases he : k = v.SOLUTION_COUNT
    · have hk2 : v.SOLUTION_COUNT + 1 < v.MAX_WORDS := by omega
      have hb2 := (fold_history_beyond v hv H (v.SOLUTION_COUNT + 1) (by omega) hk2).mpr hall
      have := WordSet.two_le_count _ _ k (v.SOLUTION_COUNT + 1) hk hk2 (by omega) hb hb2
      omega
    · have hk2 : v.SOLUTION_COUNT < v.MAX_WORDS := by omega
      have hb2 := (fold_history_beyond v hv H v.SOLUTION_COUNT (Nat.le_refl _) hk2).mpr hall
      have := WordSet.two_le_count _ _ k v.SOLUTION_COUNT hk hk2 he hb hb2
      omega

/-- The run at population 1. For every history after whose folding the candidate set has
population exactly 1, the run does not call the scoring engine, and it reports the word of the solution index
whose bit is set, that word and nothing else; the set bit is a solution index whenever the
bit vector does not have exactly one bit beyond the solution table. -/
theorem run_history_of_count_one (v : Vocabulary) (hv : v.WellFormed)
    (H : List (List Char × List Char))
    (h1 : WordSet.count v.MAX_WORDS (fold_history v H) = 1) :
    (∀ cs, Event.analyze cs ∉ run_history v H) ∧
      (∀ i, i < v.SOLUTION_COUNT → (fold_history v H).testBit i = true →
        run_history v H = [Event.remaining 1, Event.solution (v.solution i)]) ∧
      (v.GUESS_COUNT ≠ v.SOLUTION_COUNT + 1 →
        ∃ i, i < v.SOLUTION_COUNT ∧ (fold_history v H).testBit i = true) := by
  refine ⟨fun cs h => ?_, fun i hi hb => ?_, solution_bit_of_count_one v hv H h1⟩
  · have := ((analyze_mem_run_history v H cs).mp h).2
    omega
  · have hn : ¬ (1 < WordSet.count v.MAX_WORDS (fold_history v H)) := by omega
    rw [run_history_eq, if_neg hn, List.append_nil]
    exact output_of_count_one v hv _ i h1 hi hb

/-- C14, the code on the tables with one guess word beyond the four solution words, after
the history `(crane, -----)`, `(fuzzy, -----)`. The folded candidate set has population
exactly 1, but the one set bit is bit 4, the index of no solution word: the run prints the
count 1 and reports no word at all. -/
theorem C14_population_one_reports_no_word :
    sampleVocabularyOneExtra.WellFormed ∧
      sampleVocabularyOneExtra.SOLUTION_COUNT = 4 ∧
      sampleVocabularyOneExtra.GUESS_COUNT = 5 ∧
      fold_history sampleVocabularyOneExtra
        [("crane".toList, "-----".toList), ("fuzzy".toList, "-----".toList)] = 16 ∧
      WordSet.count sampleVocabularyOneExtra.MAX_WORDS
        (fold_history sampleVocabularyOneExtra
          [("crane".toList, "-----".toList), ("fuzzy".toList, "-----".toList)]) = 1 ∧
      main sampleVocabularyOneExtra
          ["crane".toList, "-----".toList, "fuzzy".toList, "-----".toList] =
        [Event.remaining 1] ∧
      (∀ w, Event.solution w ∉ main sampleVocabularyOneExtra
        ["crane".toList, "-----".toList, "fuzzy".toList, "-----".toList]) := by
  have hm : main sampleVocabularyOneExtra
      ["crane".toList, "-----".toList, "fuzzy".toList, "-----".toList] =
        [Event.remaining 1] := by decide
  refine ⟨by decide, by decide, by decide, by decide, by decide, hm, fun w h => ?_⟩
  rw [hm, List.mem_singleton] at h
  exact Event.noConfusion h

/-- With a folded population of 0 the run reports the count 0 and nothing else. -/
theorem run_history_of_count_zero (v : Vocabulary) (H : List (List Char × List Char))
    (h0 : WordSet.count v.MAX_WORDS (fold_history v H) = 0) :
    run_history v H = [Event.remaining 0] := by
  have hn : ¬ (1 < WordSet.count v.MAX_WORDS (fold_history v H)) := by omega
  rw [run_history_eq, if_neg hn, List.append_nil]
  unfold apply_known_guesses_output
  have h0' : WordSet.count v.MAX_WORDS
      (apply_known_guesses v (WordleAnalyzer.new v) H).current_solutions = 0 := h0
  rw [h0', if_neg (by decide)]

/-- C13, the code on the sample tables after the history `(crane, -----)`, `(fuzzy, -----)`.
No solution word is left a candidate, but the two bits beyond the solution table are still
set: the reported count is 2 and the scoring engine is called, on the candidate set
`0b110000`. -/
theorem C13_inconsistent_history_scored :
    (∀ i, i < sampleVocabulary.SOLUTION_COUNT →
        (fold_history sampleVocabulary
          [("crane".toList, "-----".toList), ("fuzzy".toList, "-----".toList)]).testBit i
            = false) ∧
      main sampleVocabulary
          ["crane".toList, "-----".toList, "fuzzy".toList, "-----".toList] =
        [Event.remaining 2, Event.analyze 48] ∧
      Event.analyze 48 ∈ main sampleVocabulary
        ["crane".toList, "-----".toList, "fuzzy".toList, "-----".toList] := by
  refine ⟨by decide, by decide, by decide⟩

/-- C12, the claim at the arguments `fuzzy x----` on the sample tables. The feedback string
has the character `x`, which is none of `=`, `+`, `-`; the run is not rejected: the record
narrows the candidate set (bit 3, `fuzzy`, is cleared by the four `-` positions) and the
scoring engine is called. -/
theorem C12_malformed_feedback_not_rejected :
    isPattern "x----".toList = false ∧
      (fold_history sampleVocabulary []).testBit 3 = true ∧
      (fold_history sampleVocabulary (parse_args ["fuzzy".toList, "x----".toList])).testBit 3
        = false ∧
      fold_history sampleVocabulary (parse_args ["fuzzy".toList, "x----".toList]) ≠
        fold_history sampleVocabulary [] ∧
      main sampleVocabulary ["fuzzy".toList, "x----".toList] =
        [Event.remaining 5, Event.analyze 55] := by
  refine ⟨by decide, by decide, by decide, by decide, by decide⟩

/-- A feedback character other than `=`, `+`, `-` leaves the running result of
`apply_guess` unchanged at its position. -/
theorem apply_guess_step_unrecognised (v : Vocabulary) (a : WordleAnalyzer)
    (guess pattern : List Char) (r : WordSet) (j : Nat)
    (h1 : charAt pattern j ≠ '=') (h2 : charAt pattern j ≠ '+') (h3 : charAt pattern j ≠ '-') :
    apply_guess_step v a guess pattern r j = r ∧ ∀ k, keeps v a guess pattern j k = true := by
  refine ⟨?_, fun k => ?_⟩
  · unfold apply_guess_step
    dsimp only
    rw [if_neg h1, if_neg h2, if_neg h3]
  · unfold keeps
    dsimp only
    rw [if_neg h1, if_neg h2, if_neg h3]

/-- The solution-word bits of the folded candidate set, for every history, whatever the
characters of its feedback strings. -/
theorem fold_history_solution_bits (v : Vocabulary) (hv : v.WellFormed)
    (H : List (List Char × List Char)) (i : Nat) (hi : i < v.SOLUTION_COUNT) :
    (fold_history v H).testBit i = true ↔
      ∀ r ∈ H, ∀ j, j < WORD_LENGTH →
        (charAt r.2 j = '=' → charAt (v.solution i) j = charAt r.1 j) ∧
        (charAt r.2 j = '+' →
          charAt r.1 j ∈ v.solution i ∧ charAt (v.solution i) j ≠ charAt r.1 j) ∧
        (charAt r.2 j = '-' → charAt r.1 j ∉ v.solution i) := by
  have hW : i < v.MAX_WORDS := Nat.lt_of_lt_of_le hi hv.1
  rw [fold_history_testBit, Bool.and_eq_true, decide_eq_true_eq, List.all_eq_true]
  have hrec : ∀ r : List Char × List Char,
      record_keeps v (WordleAnalyzer.new v) r i = true ↔
        ∀ j, j < WORD_LENGTH →
          (charAt r.2 j = '=' → charAt (v.solution i) j = charAt r.1 j) ∧
          (charAt r.2 j = '+' →
            charAt r.1 j ∈ v.solution i ∧ charAt (v.solution i) j ≠ charAt r.1 j) ∧
          (charAt r.2 j = '-' → charAt r.1 j ∉ v.solution i) := by
    intro r
    unfold record_keeps
    rw [List.all_eq_true]
    constructor
    · intro h j hj
      have hk := h j (List.mem_range.mpr hj)
      rw [keeps_congr v (WordleAnalyzer.new v) (analyzerWith v 0) rfl rfl,
        keeps_iff v hv 0 r.1 r.2 j i hj] at hk
      obtain ⟨a, b, c⟩ := hk
      exact ⟨fun e => (a e).2, fun e => (b e).2, fun e hm => (c e).2 ⟨hi, hm⟩⟩
    · intro h j hj
      have hj' := List.mem_range.mp hj
      obtain ⟨a, b, c⟩ := h j hj'
      rw [keeps_congr v (WordleAnalyzer.new v) (analyzerWith v 0) rfl rfl,
        keeps_iff v hv 0 r.1 r.2 j i hj']
      exact ⟨fun e => ⟨hi, a e⟩, fun e => ⟨hi, b e⟩, fun e => ⟨hW, fun hm => c e hm.2⟩⟩
  constructor
  · rintro ⟨_, h⟩ r hr
    exact (hrec r).mp (h r hr)
  · intro h
    exact ⟨hW, fun r hr => (hrec r).mpr (h r hr)⟩

theorem run_history_head (v : Vocabulary) (H : List (List Char × List Char)) :
    ∃ rest, run_history v H =
      Event.remaining (WordSet.count v.MAX_WORDS (fold_history v H)) :: rest :=
  ⟨_, rfl⟩

/-- C12, as amended. No history is rejected. For every history whose guesses are words of
five lowercase letters and whose feedback strings have five characters, of any kind, a
solution word is a candidate after folding exactly when, for every record and every position
`j`: `=` implies that the word has `guess[j]` at `j`, `+` implies that it contains `guess[j]`
but not at `j`, `-` implies that it does not contain `guess[j]`; a position whose feedback
character is none of the three puts no constraint. The run then reports the remaining count,
and calls the scoring engine exactly when the folded population is greater than 1. -/
theorem C12_unrecognised_symbol_no_constraint (v : Vocabulary) (hv : v.WellFormed)
    (H : List (List Char × List Char))
    (_hH : ∀ r ∈ H, isWord r.1 = true ∧ r.2.length = WORD_LENGTH) :
    (∀ i, i < v.SOLUTION_COUNT →
        ((fold_history v H).testBit i = true ↔
          ∀ r ∈ H, ∀ j, j < WORD_LENGTH →
            (charAt r.2 j = '=' → charAt (v.solution i) j = charAt r.1 j) ∧
            (charAt r.2 j = '+' →
              charAt r.1 j ∈ v.solution i ∧ charAt (v.solution i) j ≠ charAt r.1 j) ∧
            (charAt r.2 j = '-' → charAt r.1 j ∉ v.solution i))) ∧
      (∃ rest, run_history v H =
        Event.remaining (WordSet.count v.MAX_WORDS (fold_history v H)) :: rest) ∧
      ((∃ cs, Event.analyze cs ∈ run_history v H) ↔
        1 < WordSet.count v.MAX_WORDS (fold_history v H)) := by
  refine ⟨fun i hi => fold_history_solution_bits v hv H i hi, run_history_head v H, ?_⟩
  constructor
  · rintro ⟨cs, h⟩
    exact ((analyze_mem_run_history v H cs).mp h).2
  · intro h
    exact ⟨fold_history v H, (analyze_mem_run_history v H _).mpr ⟨rfl, h⟩⟩

/-- C12 as amended, at the sample tables: the history `(fuzzy, x----)`, `(speed, --+q+)`,
whose two feedback strings each have a character that is none of `=`, `+`, `-`; it leaves
the one candidate `abide`. -/
theorem C12_unrecognised_symbol_no_constraint_witness :
    sampleVocabulary.WellFormed ∧
      (∀ r ∈ [("fuzzy".toList, "x----".toList), ("speed".toList, "--+q+".toList)],
        isWord r.1 = true ∧ r.2.length = WORD_LENGTH) ∧
      fold_history sampleVocabulary
        [("fuzzy".toList, "x----".toList), ("speed".toList, "--+q+".toList)] = 2 ∧
      ((∀ i, i < sampleVocabulary.SOLUTION_COUNT →
          ((fold_history sampleVocabulary
              [("fuzzy".toList, "x----".toList), ("speed".toList, "--+q+".toList)]).testBit i
                = true ↔
            ∀ r ∈ [("fuzzy".toList, "x----".toList), ("speed".toList, "--+q+".toList)],
              ∀ j, j < WORD_LENGTH →
                (charAt r.2 j = '=' → charAt (sampleVocabulary.solution i) j = charAt r.1 j) ∧
                (charAt r.2 j = '+' →
                  charAt r.1 j ∈ sampleVocabulary.solution i ∧
                    charAt (sampleVocabulary.solution i) j ≠ charAt r.1 j) ∧
                (charAt r.2 j = '-' → charAt r.1 j ∉ sampleVocabulary.solution i))) ∧
        (∃ rest, run_history sampleVocabulary
            [("fuzzy".toList, "x----".toList), ("speed".toList, "--+q+".toList)] =
          Event.remaining (WordSet.count sampleVocabulary.MAX_WORDS
            (fold_history sampleVocabulary
              [("fuzzy".toList, "x----".toList), ("speed".toList, "--+q+".toList)])) :: rest) ∧
        ((∃ cs, Event.analyze cs ∈ run_history sampleVocabulary
            [("fuzzy".toList, "x----".toList), ("speed".toList, "--+q+".toList)]) ↔
          1 < WordSet.count sampleVocabulary.MAX_WORDS
            (fold_history sampleVocabulary
              [("fuzzy".toList, "x----".toList), ("speed".toList, "--+q+".toList)]))) :=
  ⟨by decide, by decide, by decide,
    C12_unrecognised_symbol_no_constraint sampleVocabulary (by decide)
      [("fuzzy".toList, "x----".toList), ("speed".toList, "--+q+".toList)] (by decide)⟩

end Wordle
